import Mathlib

/-! BlaBla PRNG (`src/blabla.h`): shallow embedding and verified properties

The generator `BlaBlaPRNG::BlaBla<R>` is embedded as a record of its four data
members.  `uint64_t` values are natural numbers, every wrapping operation carries
an explicit `% W64`.  The arrays `block[16]` and `keysetup[8]` are `Words 16` and
`Words 8`, so their sizes are fixed by the type exactly as in C++; subscripts are
natural numbers and go through `rd` and `wr`.  The template
parameter `R` is an explicit argument.
-/

namespace BlaBlaPRNG

/-! ## Machine words and arrays -/

/-- Modulus of `uint64_t` arithmetic. -/
def W64 : Nat := 2 ^ 64

/-- Modulus of `uint32_t` arithmetic. -/
def W32 : Nat := 2 ^ 32

/-- A C array of `n` machine words. -/
structure Words (n : Nat) where
  data : List Nat
  size_eq : data.length = n
deriving DecidableEq

/-- An array of `n` words, all zero; stands for a local array before it is filled. -/
def Words.zero (n : Nat) : Words n := ⟨List.replicate n 0, List.length_replicate n 0⟩

/-- Subscript read `arr[i]`.  A subscript outside the array is undefined behaviour in
C++; the embedding reads `0` there. -/
def rd {n : Nat} (arr : Words n) (i : Nat) : Nat := arr.data.getD i 0

/-- Subscript write `arr[i] = v`.  A subscript outside the array is undefined behaviour
in C++; the embedding leaves the array as it is there. -/
def wr {n : Nat} (arr : Words n) (i : Nat) (v : Nat) : Words n :=
  ⟨arr.data.set i v, by rw [List.length_set]; exact arr.size_eq⟩

/-- A counted loop `for (uint32_t i = 0; i < n; ++i) body`, threading the state the body
changes. -/
def for_loop {σ : Type} : Nat → (Nat → σ → σ) → σ → σ
  | 0, _, st => st
  | n + 1, body, st => body n (for_loop n body st)

/-! ## The generator -/

/-- Data members of `class BlaBla` (lines 88-92). -/
structure BlaBla where
  block : Words 16
  block_idx : Nat
  keysetup : Words 8
  ctr : Nat

/-- The value `uint64_t(-1)` that `seed` and `operator>>` store in `block_idx`. -/
def NO_BLOCK : Nat := W64 - 1

/-- Line 86: `rotate_right(x, n) = (x >> n) | (x << (64 - n))` on `uint64_t`. -/
def rotate_right (x n : Nat) : Nat :=
  (x >>> n) ||| ((x <<< (64 - n)) % W64)

/-- Lines 169-175: `mix_func(a, b, c, d)`, acting on the member `block`. -/
def mix_func (a b c d : Nat) (block : Words 16) : Words 16 :=
  let block := wr block a ((rd block a + rd block b) % W64)
  let block := wr block d (rd block d ^^^ rd block a)
  let block := wr block d (rotate_right (rd block d) 32)
  let block := wr block c ((rd block c + rd block d) % W64)
  let block := wr block b (rd block b ^^^ rd block c)
  let block := wr block b (rotate_right (rd block b) 24)
  let block := wr block a ((rd block a + rd block b) % W64)
  let block := wr block d (rd block d ^^^ rd block a)
  let block := wr block d (rotate_right (rd block d) 16)
  let block := wr block c ((rd block c + rd block d) % W64)
  let block := wr block b (rd block b ^^^ rd block c)
  let block := wr block b (rotate_right (rd block b) 63)
  block

/-- Lines 178-190: `blabla_core()`, the loop `for (i = 0; i < R; ++i)` over the eight
`mix_func` calls, acting on the member `block`. -/
def blabla_core (R : Nat) (block : Words 16) : Words 16 :=
  for_loop R (fun _ block =>
    let block := mix_func 0 4 8 12 block
    let block := mix_func 1 5 9 13 block
    let block := mix_func 2 6 10 14 block
    let block := mix_func 3 7 11 15 block
    let block := mix_func 0 5 10 15 block
    let block := mix_func 1 6 11 12 block
    let block := mix_func 2 7 8 13 block
    let block := mix_func 3 4 9 14 block
    block) block

/-- Line 150: the local array `constants`. -/
def constants : Words 4 :=
  ⟨[0x6170786593810fab, 0x3320646ec7398aee, 0x79622d3217318274, 0x6b206574babadada], rfl⟩

/-- Lines 152-161 of `generate_block`: the local array `input`, as a function of the
members `keysetup` and `block_idx` it is filled from. -/
def generate_input (keysetup : Words 8) (block_idx : Nat) : Words 16 :=
  let input : Words 16 := Words.zero 16
  let input := for_loop 4 (fun i input => wr input i (rd constants i)) input
  let input := for_loop 4 (fun i input => wr input (4 + i) (rd keysetup i)) input
  let input := wr input 8 0x2ae36e593e46ad5f
  let input := wr input 9 0xb68f143029225fc9
  let input := wr input 10 0x8da1e08468303aa6
  let input := wr input 11 0xa48a209acd50a4a7
  let input := wr input 12 0x7fdc12f23f90778c
  let input := wr input 13 ((block_idx + 1) % W64)
  let input := wr input 15 0
  let input := wr input 14 (rd input 15)
  input

/-- Lines 148-166: `generate_block()`. -/
def generate_block (R : Nat) (s : BlaBla) : BlaBla :=
  let input := generate_input s.keysetup s.block_idx
  let s := { s with block := for_loop 16 (fun i block => wr block i (rd input i)) s.block }
  let s := { s with block := blabla_core R s.block }
  let block := for_loop 16 (fun i block => wr block i ((rd block i + rd input i) % W64)) s.block
  { s with block := block }

/-- Lines 107-115: `seed(uint64_t seedval, uint64_t stream)`. -/
def BlaBla.seed (s : BlaBla) (seedval stream : Nat) : BlaBla :=
  let s := { s with ctr := 0 }
  let s := { s with block_idx := NO_BLOCK }
  let s := { s with keysetup := wr s.keysetup 0 0x1fe2c9482a400d2e }
  let s := { s with keysetup := wr s.keysetup 1 0xe6c7993da713d61d }
  let s := { s with keysetup := wr s.keysetup 2 seedval }
  let s := { s with keysetup := wr s.keysetup 3 stream }
  s

/-- Lines 117-127: `seed(Sseq& seq)`.  The collaborator call `seq.generate(seeds, seeds + 8)`
is represented by the eight `uint32_t` values `seeds` it stores. -/
def BlaBla.seed_seq (s : BlaBla) (seeds : Words 8) : BlaBla :=
  let s := { s with ctr := 0 }
  let s := { s with block_idx := NO_BLOCK }
  let keysetup := for_loop 4 (fun i keysetup =>
    wr keysetup i (((rd seeds (2 * i) <<< 32) % W64) ||| rd seeds (2 * i + 1))) s.keysetup
  { s with keysetup := keysetup }

/-- Lines 130-141: `operator()()`; returns the drawn word and the updated generator. -/
def BlaBla.operator_call (R : Nat) (s : BlaBla) : Nat × BlaBla :=
  let next_block_idx := s.ctr / 16
  let idx_in_block := s.ctr % 16
  let s := if next_block_idx ≠ s.block_idx then
      generate_block R { s with block_idx := next_block_idx }
    else s
  let s := { s with ctr := (s.ctr + 1) % W64 }
  (rd s.block idx_in_block, s)

/-- Lines 143-146: `discard(unsigned long long n)`. -/
def BlaBla.discard (s : BlaBla) (n : Nat) : BlaBla :=
  { s with ctr := (s.ctr + n) % W64 }

/-- Lines 194-201: `operator==`, the loop over the four key words with its early
`return false`, then the comparison of `ctr`. -/
def operator_eq (lhs rhs : BlaBla) : Bool :=
  if (List.range 4).any (fun i => rd lhs.keysetup i != rd rhs.keysetup i) then false
  else lhs.ctr == rhs.ctr

/-- Line 204: `operator!=`. -/
def operator_ne (lhs rhs : BlaBla) : Bool := !(operator_eq lhs rhs)

/-! ## The stream library

`operator<<` and `operator>>` are written against `std::basic_ostream` and
`std::basic_istream`.  The part of the C++ standard streams they use is embedded here:
the format flags both operators assign, the field width, the fill character and the digit
grouping of the locale of an output stream, the state bits and the exception mask of an
input stream, and the formatted extraction of an unsigned integer in the classic locale. -/

/-- The `std::ios_base::fmtflags` bits that the two stream operators assign or that decide
how an integer is read or written. -/
structure fmtflags where
  dec : Bool
  fixed : Bool
  left : Bool
  skipws : Bool

/-- An output stream: the characters written so far, the format flags, the fill character,
the field width that pads the next formatted insertion, and the two members of the
`numpunct` facet of the stream's locale that `num_put` consults for an integer:
`grouping()` (the sizes of the digit groups, rightmost group first) and
`thousands_sep()`. -/
structure OStream where
  out : List Char
  flags : fmtflags
  fill : Char
  width : Nat
  grouping : List Nat
  thousands_sep : Char

/-- An input stream: the characters not yet consumed, the format flags, the two state
bits `eofbit` and `failbit`, and the exception mask `exceptions()`: which of the two bits
makes `setstate` throw `ios_base::failure`. -/
structure IStream where
  buf : List Char
  flags : fmtflags
  eofbit : Bool
  failbit : Bool
  except_eofbit : Bool
  except_failbit : Bool

/-- The stream is `good()`: neither `eofbit` nor `failbit` is set. -/
def IStream.good (is : IStream) : Bool := !(is.eofbit || is.failbit)

/-- A state bit that is set is in the exception mask.  `setstate` ends in
`clear(rdstate() | bits)`, which throws `ios_base::failure` exactly when the new state
has a bit of `exceptions()`.  A formatted extraction calls `setstate` at its end unless it
has no bit to set, and then the stream is still `good()`; so the extraction `is >> val`
throws exactly when the stream it leaves behind satisfies `throws`.  The value is stored
before `setstate` runs. -/
def IStream.throws (is : IStream) : Bool :=
  (is.eofbit && is.except_eofbit) || (is.failbit && is.except_failbit)

/-- Decimal digits of `v`, most significant first, produced by repeated division by ten;
`fuel` bounds the number of digits (twenty are enough for a `uint64_t`). -/
def to_decimal_aux : Nat → Nat → List Char → List Char
  | 0, _, acc => acc
  | fuel + 1, v, acc =>
    if v / 10 = 0 then Char.ofNat (48 + v % 10) :: acc
    else to_decimal_aux fuel (v / 10) (Char.ofNat (48 + v % 10) :: acc)

/-- The decimal text of a `uint64_t`, as `num_put` writes it under `ios_base::dec`. -/
def to_decimal (v : Nat) : List Char := to_decimal_aux 20 v []

/-- Padding of a formatted insertion: `text` is filled up to `os.width` characters with
`os.fill`, after the text under `ios_base::left` and before it otherwise, and the width is
reset to zero. -/
def OStream.put_padded (os : OStream) (text : List Char) : OStream :=
  let pad := List.replicate (os.width - text.length) os.fill
  let field := if os.flags.left then text ++ pad else pad ++ text
  { os with out := os.out ++ field, width := 0 }

/-- Digit grouping of `num_put`, on the digits in reverse (least significant first):
`groups` are the group sizes of `numpunct::grouping()`, rightmost group first, the last
size repeating; a size of 0 or of `CHAR_MAX` (127) or more ends the grouping, and a
separator is written only where digits remain to its left.  `fuel` bounds the number of
groups. -/
def add_grouping (sep : Char) : Nat → List Nat → List Char → List Char
  | 0, _, digits => digits
  | _ + 1, [], digits => digits
  | fuel + 1, g :: gs, digits =>
    if g = 0 ∨ 127 ≤ g ∨ digits.length ≤ g then digits
    else digits.take g ++
      sep :: add_grouping sep fuel (if gs.isEmpty then [g] else gs) (digits.drop g)

/-- Formatted insertion `os << v` of a `uint64_t` under `ios_base::dec`: the decimal
digits, grouped as the locale says, then padded to the field width. -/
def OStream.put_u64 (os : OStream) (v : Nat) : OStream :=
  os.put_padded (add_grouping os.thousands_sep 20 os.grouping (to_decimal v).reverse).reverse

/-- Formatted insertion `os << c` of a single character. -/
def OStream.put_char (os : OStream) (c : Char) : OStream := os.put_padded [c]

/-- Whitespace of the classic locale: space and the control characters `\t \n \v \f \r`. -/
def isspace (c : Char) : Bool := c.toNat == 32 || (9 ≤ c.toNat && c.toNat ≤ 13)

/-- Value of a run of decimal digits. -/
def digits_value (digits : List Char) : Nat :=
  digits.foldl (fun acc c => 10 * acc + (c.toNat - 48)) 0

/-- Formatted extraction `is >> val` of a `uint64_t` under `ios_base::dec`, as the C++
standard library defines it (`basic_istream::sentry`, then `num_get::get` for an unsigned
type, C++11 and later).
* The sentry: a stream that is not `good()` gets `failbit` and `val` is left alone.  Only
  when the flag `skipws` is set is leading whitespace discarded; reaching the end of input
  there sets `eofbit | failbit`, again leaving `val` alone.  Without `skipws` nothing is
  discarded.
* `num_get`: an optional sign, then the longest run of decimal digits.  No digit at all
  stores `0` and sets `failbit`; a value above `2^64 - 1` stores `2^64 - 1` and sets
  `failbit`; otherwise the value is stored, negated modulo `2^64` after a minus sign.
  Running into the end of input sets `eofbit`.
The result is the stream and the value as the extraction leaves them, whether it returns
or throws; `IStream.throws` of that stream tells which. -/
def extract_u64 (is : IStream) (val : Nat) : IStream × Nat :=
  if is.eofbit || is.failbit then ({ is with failbit := true }, val)
  else
    let buf := if is.flags.skipws then is.buf.dropWhile isspace else is.buf
    if is.flags.skipws && buf.isEmpty then
      ({ is with buf := buf, eofbit := true, failbit := true }, val)
    else
      let negative := buf.head? == some '-'
      let buf := if buf.head? == some '-' || buf.head? == some '+' then buf.tail else buf
      let digits := buf.takeWhile Char.isDigit
      let buf := buf.dropWhile Char.isDigit
      let result := digits_value digits
      if digits.isEmpty then
        ({ is with buf := buf, eofbit := buf.isEmpty, failbit := true }, 0)
      else if result > W64 - 1 then
        ({ is with buf := buf, eofbit := buf.isEmpty, failbit := true }, W64 - 1)
      else
        ({ is with buf := buf, eofbit := buf.isEmpty },
          if negative then (W64 - result) % W64 else result)

/-- The flag word `ios_base::dec` that `operator>>` assigns. -/
def dec_only : fmtflags := { dec := true, fixed := false, left := false, skipws := false }

/-- Lines 206-228: `operator<<`. -/
def operator_out (os : OStream) (rng : BlaBla) : OStream :=
  let flags := os.flags
  let fill := os.fill
  let space := ' '
  let os := { os with flags := { dec := true, fixed := true, left := true, skipws := false } }
  let os := { os with fill := space }
  let os := for_loop 4 (fun i os => (os.put_u64 (rd rng.keysetup i)).put_char space) os
  let os := os.put_u64 rng.ctr
  let os := { os with flags := flags }
  let os := { os with fill := fill }
  os

/-- Lines 230-247: `operator>>`, with the stream and the generator as the call leaves
them and whether it was left by an exception (`true`) or by `return is` (`false`).
Line 236, `is.flags(ios_base::dec)`, assigns the whole flag word
(`ios_base::flags(fmtflags)` replaces, it does not merge), so `skipws` is off while the
five fields are extracted.  The function has no `try`: an extraction that throws ends the
call there, after its value is stored, and neither the later extractions nor line 241
(`block_idx = uint64_t(-1)`) nor line 244 (the saved flags put back) run. -/
def operator_in_run (is : IStream) (rng : BlaBla) : (IStream × BlaBla) × Bool :=
  let flags := is.flags
  let is := { is with flags := dec_only }
  let p := for_loop 4 (fun i (p : (IStream × BlaBla) × Bool) =>
    if p.2 then p
    else
      let r := extract_u64 p.1.1 (rd p.1.2.keysetup i)
      ((r.1, { p.1.2 with keysetup := wr p.1.2.keysetup i r.2 }), r.1.throws)) ((is, rng), false)
  if p.2 then p
  else
    let is := p.1.1
    let rng := p.1.2
    let r := extract_u64 is rng.ctr
    let is := r.1
    let rng := { rng with ctr := r.2 }
    if is.throws then ((is, rng), true)
    else
      let rng := { rng with block_idx := NO_BLOCK }
      let is := { is with flags := flags }
      ((is, rng), false)

/-- The stream and the generator after `is >> rng`, whether the call returned or threw. -/
def operator_in (is : IStream) (rng : BlaBla) : IStream × BlaBla := (operator_in_run is rng).1

/-- The call `is >> rng` is left by an `ios_base::failure` exception. -/
def operator_in_throws (is : IStream) (rng : BlaBla) : Bool := (operator_in_run is rng).2

/-- A freshly opened input stream over `text`: default flags (`dec | skipws`), no state
bit set, empty exception mask. -/
def IStream.of_text (text : List Char) : IStream :=
  { buf := text, flags := { dec := true, fixed := false, left := false, skipws := true },
    eofbit := false, failbit := false, except_eofbit := false, except_failbit := false }

/-- A freshly opened output stream: nothing written, default flags, fill `' '`, width 0,
the classic locale (no digit grouping). -/
def OStream.fresh : OStream :=
  { out := [], flags := { dec := true, fixed := false, left := false, skipws := true },
    fill := ' ', width := 0, grouping := [], thousands_sep := ',' }

/-! ## Reachable generator states -/

/-- The states a `BlaBla<R>` object can hold.  Both constructors call a `seed` overload on
storage with arbitrary contents (`s0`); afterwards the object is changed by draws,
`discard`, `operator>>` and further seedings (again `seed` on any state).  A call of
`operator>>` counts whether it returns or throws: the generator is passed by reference and
keeps what the call stored in it. -/
inductive Reachable (R : Nat) : BlaBla → Prop
  | seed (s0 : BlaBla) (seedval stream : Nat) (hv : seedval < W64) (hs : stream < W64) :
      Reachable R (s0.seed seedval stream)
  | seed_seq (s0 : BlaBla) (seeds : Words 8) (h : ∀ i, i < 8 → rd seeds i < W32) :
      Reachable R (s0.seed_seq seeds)
  | operator_call {s : BlaBla} : Reachable R s → Reachable R (s.operator_call R).2
  | discard {s : BlaBla} (n : Nat) : Reachable R s → Reachable R (s.discard n)
  | operator_in {s : BlaBla} (is : IStream) : Reachable R s → Reachable R (operator_in is s).2

/-- The states of `Reachable` that are reached without any call of `operator>>` being left
by an exception. -/
inductive ReachableNoThrow (R : Nat) : BlaBla → Prop
  | seed (s0 : BlaBla) (seedval stream : Nat) (hv : seedval < W64) (hs : stream < W64) :
      ReachableNoThrow R (s0.seed seedval stream)
  | seed_seq (s0 : BlaBla) (seeds : Words 8) (h : ∀ i, i < 8 → rd seeds i < W32) :
      ReachableNoThrow R (s0.seed_seq seeds)
  | operator_call {s : BlaBla} : ReachableNoThrow R s → ReachableNoThrow R (s.operator_call R).2
  | discard {s : BlaBla} (n : Nat) : ReachableNoThrow R s → ReachableNoThrow R (s.discard n)
  | operator_in {s : BlaBla} (is : IStream) (hret : operator_in_throws is s = false) :
      ReachableNoThrow R s → ReachableNoThrow R (operator_in is s).2

/-- The generator after `n` further draws whose results are thrown away. -/
def BlaBla.draws (R : Nat) : Nat → BlaBla → BlaBla
  | 0, s => s
  | n + 1, s => BlaBla.draws R n (s.operator_call R).2

/-- A concrete block of storage, used where an example needs some prior contents. -/
def zero_state : BlaBla :=
  { block := Words.zero 16, block_idx := 0, keysetup := Words.zero 8, ctr := 0 }

/-- The cache is valid: unless `block_idx` is `uint64_t(-1)`, `block` holds what
`generate_block` computes from the current `keysetup` and `block_idx`. -/
def CacheValid (R : Nat) (s : BlaBla) : Prop :=
  s.block_idx ≠ NO_BLOCK → s.block = (generate_block R s).block

/-- Invariant of the states reached without an `operator>>` call that throws: `ctr` is a
64-bit value and the cache is valid. -/
def Inv (R : Nat) (s : BlaBla) : Prop := s.ctr < W64 ∧ CacheValid R s

/-! ## The block permutation as the specification words it

These definitions follow the prose description of the permutation (a working vector of
16 words, eight quarter-rounds per round, feed-forward); they are compared with
`generate_block` below. -/

/-- The quarter-round on four words: four add / xor / rotate-right steps with the
rotation amounts 32, 24, 16, 63. -/
def spec_quarter_round (q : Nat × Nat × Nat × Nat) : Nat × Nat × Nat × Nat :=
  let a := q.1
  let b := q.2.1
  let c := q.2.2.1
  let d := q.2.2.2
  let a := (a + b) % 2 ^ 64
  let d := rotate_right (d ^^^ a) 32
  let c := (c + d) % 2 ^ 64
  let b := rotate_right (b ^^^ c) 24
  let a := (a + b) % 2 ^ 64
  let d := rotate_right (d ^^^ a) 16
  let c := (c + d) % 2 ^ 64
  let b := rotate_right (b ^^^ c) 63
  (a, b, c, d)

/-- The quarter-round applied to the words of `v` at the four positions `idx`. -/
def spec_mix (idx : Nat × Nat × Nat × Nat) (v : List Nat) : List Nat :=
  let r := spec_quarter_round
    (v.getD idx.1 0, v.getD idx.2.1 0, v.getD idx.2.2.1 0, v.getD idx.2.2.2 0)
  (((v.set idx.1 r.1).set idx.2.1 r.2.1).set idx.2.2.1 r.2.2.1).set idx.2.2.2 r.2.2.2

/-- The eight index quadruples of one round, in order. -/
def spec_schedule : List (Nat × Nat × Nat × Nat) :=
  [(0, 4, 8, 12), (1, 5, 9, 13), (2, 6, 10, 14), (3, 7, 11, 15),
   (0, 5, 10, 15), (1, 6, 11, 12), (2, 7, 8, 13), (3, 4, 9, 14)]

/-- One round: the eight quarter-rounds in schedule order. -/
def spec_round (v : List Nat) : List Nat :=
  spec_schedule.foldl (fun v idx => spec_mix idx v) v

/-- The mixing core: `R` repetitions of the round. -/
def spec_core (R : Nat) (v : List Nat) : List Nat := Nat.iterate spec_round R v

/-- The working vector `input` for key words `k0 .. k3` and block index `b`. -/
def spec_input (k0 k1 k2 k3 b : Nat) : List Nat :=
  [0x6170786593810fab, 0x3320646ec7398aee, 0x79622d3217318274, 0x6b206574babadada,
   k0, k1, k2, k3,
   0x2ae36e593e46ad5f, 0xb68f143029225fc9, 0x8da1e08468303aa6, 0xa48a209acd50a4a7,
   0x7fdc12f23f90778c, b + 1, 0, 0]

/-- The output block: the mixing core applied to `input`, then `input` added back
elementwise modulo `2^64`. -/
def spec_block (R : Nat) (k0 k1 k2 k3 b : Nat) : List Nat :=
  List.zipWith (fun x y => (x + y) % 2 ^ 64) (spec_core R (spec_input k0 k1 k2 k3 b))
    (spec_input k0 k1 k2 k3 b)

/-! ## The five serialized fields -/

/-- Field number `j` of the serialized state: key words 0..3, then `ctr`. -/
def serial_field (s : BlaBla) (j : Nat) : Nat := if j < 4 then rd s.keysetup j else s.ctr

/-- The input stream as `operator>>` finds it when the extraction of field `j` begins
(if no earlier extraction threw): the flags set to `dec`, then one `extract_u64` for
every earlier field. -/
def stream_before (is : IStream) (s : BlaBla) : Nat → IStream
  | 0 => { is with flags := dec_only }
  | j + 1 => (extract_u64 (stream_before is s j) (serial_field s j)).1

/-- The stream, the generator and the exception flag after the first `n` passes of the
loop of line 239 in `operator_in_run`. -/
def operator_in_loop (is : IStream) (rng : BlaBla) (n : Nat) : (IStream × BlaBla) × Bool :=
  for_loop n (fun i (p : (IStream × BlaBla) × Bool) =>
    if p.2 then p
    else
      let r := extract_u64 p.1.1 (rd p.1.2.keysetup i)
      ((r.1, { p.1.2 with keysetup := wr p.1.2.keysetup i r.2 }), r.1.throws))
    (({ is with flags := dec_only }, rng), false)

/-- The value that the extraction of field `j` stores, or leaves, in field `j`. -/
def field_after (is : IStream) (s : BlaBla) (j : Nat) : Nat :=
  (extract_u64 (stream_before is s j) (serial_field s j)).2

/-! ## Counting the calls of `generate_block` -/

/-- Lines 130-141 once more, `operator()()` together with the number of `generate_block()`
calls it makes: 1 in the branch of line 136, 0 when that branch is skipped. -/
def BlaBla.operator_call_traced (R : Nat) (s : BlaBla) : (Nat × BlaBla) × Nat :=
  let next_block_idx := s.ctr / 16
  let idx_in_block := s.ctr % 16
  let p := if next_block_idx ≠ s.block_idx then
      (generate_block R { s with block_idx := next_block_idx }, 1)
    else (s, 0)
  let s := p.1
  let s := { s with ctr := (s.ctr + 1) % W64 }
  ((rd s.block idx_in_block, s), p.2)

/-- Lines 143-146 once more, `discard(n)` together with the number of `generate_block()`
calls it makes: its body `ctr += n` has none. -/
def BlaBla.discard_traced (s : BlaBla) (n : Nat) : BlaBla × Nat :=
  ({ s with ctr := (s.ctr + n) % W64 }, 0)

/-- Number of `generate_block()` calls made by `n` consecutive draws. -/
def BlaBla.draws_calls (R : Nat) : Nat → BlaBla → Nat
  | 0, _ => 0
  | n + 1, s => (s.operator_call_traced R).2 + BlaBla.draws_calls R n (s.operator_call R).2

/-! ## The index schedule of `blabla_core` -/

/-- Lines 181-188: the argument lists of the eight `mix_func` calls in the body of the loop
of `blabla_core`, in call order. -/
def blabla_core_calls : List (Nat × Nat × Nat × Nat) :=
  [(0, 4, 8, 12), (1, 5, 9, 13), (2, 6, 10, 14), (3, 7, 11, 15),
   (0, 5, 10, 15), (1, 6, 11, 12), (2, 7, 8, 13), (3, 4, 9, 14)]

/-- The call `mix_func(a, b, c, d)` for an argument list `q = (a, b, c, d)`. -/
def apply_mix (q : Nat × Nat × Nat × Nat) (block : Words 16) : Words 16 :=
  mix_func q.1 q.2.1 q.2.2.1 q.2.2.2 block

/-- The four subscripts an argument list names. -/
def quad_indices (q : Nat × Nat × Nat × Nat) : List Nat := [q.1, q.2.1, q.2.2.1, q.2.2.2]

/-- The first four calls of the loop body (the columns). -/
def column_calls : List (Nat × Nat × Nat × Nat) := blabla_core_calls.take 4

/-- The last four calls of the loop body (the diagonals). -/
def diagonal_calls : List (Nat × Nat × Nat × Nat) := blabla_core_calls.drop 4

/-! ## Undoing a quarter-round -/

/-- The quarter-round run backwards on four words: the eight assignments of
`spec_quarter_round` undone last to first (rotation by `64 - n`, xor, subtraction modulo
`2^64`). -/
def quarter_round_inv (q : Nat × Nat × Nat × Nat) : Nat × Nat × Nat × Nat :=
  let a := q.1
  let b := q.2.1
  let c := q.2.2.1
  let d := q.2.2.2
  let b := rotate_right b 1 ^^^ c
  let c := (c + 2 ^ 64 - d) % 2 ^ 64
  let d := rotate_right d 48 ^^^ a
  let a := (a + 2 ^ 64 - b) % 2 ^ 64
  let b := rotate_right b 40 ^^^ c
  let c := (c + 2 ^ 64 - d) % 2 ^ 64
  let d := rotate_right d 32 ^^^ a
  let a := (a + 2 ^ 64 - b) % 2 ^ 64
  (a, b, c, d)

/-- The words `f` computes from the four words of `block` at positions `a, b, c, d`,
written back to those positions. -/
def write_quad (f : Nat × Nat × Nat × Nat → Nat × Nat × Nat × Nat) (a b c d : Nat)
    (block : Words 16) : Words 16 :=
  wr (wr (wr (wr block a (f (rd block a, rd block b, rd block c, rd block d)).1)
    b (f (rd block a, rd block b, rd block c, rd block d)).2.1)
    c (f (rd block a, rd block b, rd block c, rd block d)).2.2.1)
    d (f (rd block a, rd block b, rd block c, rd block d)).2.2.2

/-- The backwards quarter-round applied to the words of `block` at positions
`a, b, c, d`. -/
def mix_func_inv (a b c d : Nat) (block : Words 16) : Words 16 :=
  write_quad quarter_round_inv a b c d block

/-- The blocks whose sixteen entries are 64-bit words. -/
def word_blocks : Set (Words 16) := { blk | ∀ i, i < 16 → rd blk i < 2 ^ 64 }

/-! ## Fields that cannot be extracted -/

/-- The text of a field without its optional sign. -/
def strip_sign (buf : List Char) : List Char :=
  if buf.head? == some '-' || buf.head? == some '+' then buf.tail else buf

/-- The next field of the stream `st` is unreadable: the stream is not `good()`; or the
text has ended, or after an optional sign comes a character that is neither a digit nor
whitespace; or the digits denote a value above `2^64 - 1`. -/
def field_rejected (st : IStream) : Bool :=
  !st.good ||
    (match (strip_sign st.buf).head? with
      | none => true
      | some c => !c.isDigit && !isspace c) ||
    decide (digits_value ((strip_sign st.buf).takeWhile Char.isDigit) > 2 ^ 64 - 1)

theorem rd_wr_same {n : Nat} (arr : Words n) {i : Nat} (v : Nat) (h : i < n) :
    rd (wr arr i v) i = v := by
  have h2 : i < arr.data.length := by rw [arr.size_eq]; exact h
  simp [rd, wr, List.getD_eq_getElem?_getD, h2]

theorem rd_wr_ne {n : Nat} (arr : Words n) {i j : Nat} (v : Nat) (h : i ≠ j) :
    rd (wr arr i v) j = rd arr j := by
  simp [rd, wr, List.getD_eq_getElem?_getD, List.getElem?_set_ne h]

theorem rd_wr {n : Nat} (arr : Words n) (i j v : Nat) :
    rd (wr arr i v) j = if i = j ∧ i < n then v else rd arr j := by
  by_cases hij : i = j
  · subst hij
    by_cases hi : i < n
    · simp [hi, rd_wr_same]
    · have h2 : arr.data.length ≤ i := by rw [arr.size_eq]; omega
      have h3 : (arr.data.set i v).length ≤ i := by rw [List.length_set]; exact h2
      simp [hi, rd, wr, List.getD_eq_getElem?_getD, List.getElem?_eq_none h2,
        List.getElem?_eq_none h3]
  · simp [hij, rd_wr_ne]

theorem Words.ext_rd {n : Nat} {a b : Words n} (h : ∀ i, i < n → rd a i = rd b i) : a = b := by
  cases a with
  | mk da ha =>
    cases b with
    | mk db hb =>
      have : da = db := by
        apply List.ext_getElem (by rw [ha, hb])
        intro i h1 h2
        have := h i (by rw [← ha]; exact h1)
        simpa [rd, List.getD_eq_getElem?_getD, h1, h2] using this
      subst this
      rfl

theorem for_loop_succ {σ : Type} (n : Nat) (body : Nat → σ → σ) (st : σ) :
    for_loop (n + 1) body st = body n (for_loop n body st) := rfl

/-! ## The block permutation as a function of key words and block index -/

theorem copy_loop_rd (input blk : Words 16) (n : Nat) (hn : n ≤ 16) (j : Nat) :
    rd (for_loop n (fun i block => wr block i (rd input i)) blk) j
      = if j < n then rd input j else rd blk j := by
  induction n with
  | zero => simp [for_loop]
  | succ n ih =>
    rw [for_loop_succ, rd_wr, ih (by omega)]
    by_cases h : n = j
    · subst h
      simp [show n < 16 by omega]
    · have h1 : (j < n + 1) = (j < n) := by
        apply propext
        constructor <;> intro h2 <;> omega
      simp [h, h1]

theorem copy_loop_full (input blk : Words 16) :
    for_loop 16 (fun i block => wr block i (rd input i)) blk = input := by
  apply Words.ext_rd
  intro i hi
  rw [copy_loop_rd input blk 16 (Nat.le_refl 16) i]
  simp [hi]

theorem generate_input_congr (k1 k2 : Words 8) (b : Nat)
    (h : ∀ i, i < 4 → rd k1 i = rd k2 i) : generate_input k1 b = generate_input k2 b := by
  simp only [generate_input, for_loop]
  rw [h 0 (by decide), h 1 (by decide), h 2 (by decide), h 3 (by decide)]

theorem generate_block_block (R : Nat) (s : BlaBla) :
    (generate_block R s).block
      = for_loop 16 (fun i block =>
          wr block i ((rd block i + rd (generate_input s.keysetup s.block_idx) i) % W64))
          (blabla_core R (generate_input s.keysetup s.block_idx)) := by
  simp only [generate_block, copy_loop_full]

theorem generate_block_congr (R : Nat) (s t : BlaBla)
    (hk : ∀ i, i < 4 → rd s.keysetup i = rd t.keysetup i) (hb : s.block_idx = t.block_idx) :
    (generate_block R s).block = (generate_block R t).block := by
  rw [generate_block_block, generate_block_block, generate_input_congr _ _ _ hk, hb]

theorem generate_block_keysetup (R : Nat) (s : BlaBla) :
    (generate_block R s).keysetup = s.keysetup := by
  simp only [generate_block]

theorem generate_block_block_idx (R : Nat) (s : BlaBla) :
    (generate_block R s).block_idx = s.block_idx := by
  simp only [generate_block]

theorem generate_block_ctr (R : Nat) (s : BlaBla) :
    (generate_block R s).ctr = s.ctr := by
  simp only [generate_block]

/-! ## Effect of a draw on the members -/

theorem operator_call_ctr (R : Nat) (s : BlaBla) :
    (s.operator_call R).2.ctr = (s.ctr + 1) % W64 := by
  unfold BlaBla.operator_call
  by_cases h : s.ctr / 16 ≠ s.block_idx <;> simp [h, generate_block_ctr]

theorem operator_call_keysetup (R : Nat) (s : BlaBla) :
    (s.operator_call R).2.keysetup = s.keysetup := by
  unfold BlaBla.operator_call
  by_cases h : s.ctr / 16 ≠ s.block_idx <;> simp [h, generate_block_keysetup]

theorem operator_call_block_idx (R : Nat) (s : BlaBla) :
    (s.operator_call R).2.block_idx = s.ctr / 16 := by
  unfold BlaBla.operator_call
  by_cases h : s.ctr / 16 ≠ s.block_idx
  · simp [h, generate_block_block_idx]
  · have h2 : s.ctr / 16 = s.block_idx := by
      by_contra hc
      exact h hc
    simp [h2]

theorem operator_call_block_regen (R : Nat) (s : BlaBla) (h : s.ctr / 16 ≠ s.block_idx) :
    (s.operator_call R).2.block = (generate_block R { s with block_idx := s.ctr / 16 }).block := by
  unfold BlaBla.operator_call
  simp [h]

theorem operator_call_block_keep (R : Nat) (s : BlaBla) (h : s.ctr / 16 = s.block_idx) :
    (s.operator_call R).2.block = s.block := by
  unfold BlaBla.operator_call
  simp [h]

theorem operator_call_fst (R : Nat) (s : BlaBla) :
    (s.operator_call R).1 = rd (s.operator_call R).2.block (s.ctr % 16) := by
  unfold BlaBla.operator_call
  simp only

/-! ## The invariant: a 64-bit `ctr` and a valid cache -/

theorem W64_pos : 0 < W64 := by decide

theorem div16_ne_NO_BLOCK {c : Nat} (h : c < W64) : c / 16 ≠ NO_BLOCK := by
  have h1 : c / 16 < 2 ^ 60 := by
    apply Nat.div_lt_of_lt_mul
    have : (16 : Nat) * 2 ^ 60 = W64 := by decide
    omega
  have h2 : NO_BLOCK = 2 ^ 64 - 1 := rfl
  have h3 : (2 : Nat) ^ 60 ≤ 2 ^ 64 - 1 := by decide
  omega

theorem Inv_operator_call (R : Nat) (s : BlaBla) (h : Inv R s) : Inv R (s.operator_call R).2 := by
  refine ⟨?_, ?_⟩
  · rw [operator_call_ctr]
    exact Nat.mod_lt _ W64_pos
  · intro _
    have hc : (generate_block R (s.operator_call R).2).block
        = (generate_block R { s with block_idx := s.ctr / 16 }).block :=
      generate_block_congr R (s.operator_call R).2 { s with block_idx := s.ctr / 16 }
        (fun i _ => by rw [operator_call_keysetup]) (operator_call_block_idx R s)
    by_cases hb : s.ctr / 16 = s.block_idx
    · have h1 : (s.operator_call R).2.block = s.block := operator_call_block_keep R s hb
      have h2 : s.block = (generate_block R s).block :=
        h.2 (by rw [← hb]; exact div16_ne_NO_BLOCK h.1)
      have h3 : (generate_block R s).block
          = (generate_block R { s with block_idx := s.ctr / 16 }).block :=
        generate_block_congr R s { s with block_idx := s.ctr / 16 } (fun _ _ => rfl) hb.symm
      exact h1.trans (h2.trans (h3.trans hc.symm))
    · exact (operator_call_block_regen R s hb).trans hc.symm

theorem Inv_discard (R : Nat) (s : BlaBla) (n : Nat) (h : Inv R s) : Inv R (s.discard n) := by
  refine ⟨Nat.mod_lt _ W64_pos, ?_⟩
  intro hb
  have hv : s.block = (generate_block R s).block := h.2 hb
  have hc := generate_block_congr R s (s.discard n) (fun _ _ => rfl) rfl
  exact hv.trans hc

theorem Inv_seed (R : Nat) (s0 : BlaBla) (seedval stream : Nat) :
    Inv R (s0.seed seedval stream) :=
  ⟨W64_pos, fun hb => absurd rfl hb⟩

theorem Inv_seed_seq (R : Nat) (s0 : BlaBla) (seeds : Words 8) : Inv R (s0.seed_seq seeds) :=
  ⟨W64_pos, fun hb => absurd rfl hb⟩

/-! ## Formatted extraction -/

theorem extract_u64_not_good (is : IStream) (val : Nat) (h : is.good = false) :
    extract_u64 is val = ({ is with failbit := true }, val) := by
  have h1 : (is.eofbit || is.failbit) = true := by
    unfold IStream.good at h
    cases he : is.eofbit <;> cases hf : is.failbit <;> simp [he, hf] at h ⊢
  unfold extract_u64
  rw [if_pos h1]

theorem extract_u64_lt (is : IStream) (val : Nat) (h : val < W64) :
    (extract_u64 is val).2 < W64 := by
  unfold extract_u64
  simp only
  split_ifs <;> first
    | exact h
    | exact W64_pos
    | exact Nat.sub_lt W64_pos Nat.one_pos
    | exact Nat.mod_lt _ W64_pos
    | (simp only [W64] at *; omega)

theorem extract_u64_not_good_stays (is : IStream) (val : Nat) (h : is.good = false) :
    (extract_u64 is val).1.good = false ∧ (extract_u64 is val).1.failbit = true ∧
      (extract_u64 is val).2 = val := by
  rw [extract_u64_not_good is val h]
  refine ⟨?_, rfl, rfl⟩
  simp [IStream.good]

theorem stream_before_not_good (is : IStream) (s : BlaBla) (j : Nat)
    (h : (stream_before is s j).good = false) (i : Nat) (hi : j ≤ i) :
    (stream_before is s i).good = false := by
  induction i with
  | zero =>
    have : j = 0 := by omega
    subst this
    exact h
  | succ i ih =>
    by_cases hj : j = i + 1
    · subst hj
      exact h
    · exact (extract_u64_not_good_stays _ _ (ih (by omega))).1

theorem throws_not_good (st : IStream) (h : st.throws = true) : st.good = false := by
  unfold IStream.throws at h
  unfold IStream.good
  cases he : st.eofbit <;> cases hf : st.failbit <;> simp [he, hf] at h ⊢

theorem operator_in_loop_succ (is : IStream) (s : BlaBla) (n : Nat) :
    operator_in_loop is s (n + 1) =
      if (operator_in_loop is s n).2 then operator_in_loop is s n
      else
        (((extract_u64 (operator_in_loop is s n).1.1
            (rd (operator_in_loop is s n).1.2.keysetup n)).1,
          { (operator_in_loop is s n).1.2 with
            keysetup := wr (operator_in_loop is s n).1.2.keysetup n
                (extract_u64 (operator_in_loop is s n).1.1
                  (rd (operator_in_loop is s n).1.2.keysetup n)).2 }),
          (extract_u64 (operator_in_loop is s n).1.1
            (rd (operator_in_loop is s n).1.2.keysetup n)).1.throws) := rfl

theorem operator_in_run_loop (is : IStream) (s : BlaBla) :
    operator_in_run is s =
      if (operator_in_loop is s 4).2 then operator_in_loop is s 4
      else if (extract_u64 (operator_in_loop is s 4).1.1
          (operator_in_loop is s 4).1.2.ctr).1.throws then
        (((extract_u64 (operator_in_loop is s 4).1.1 (operator_in_loop is s 4).1.2.ctr).1,
          { (operator_in_loop is s 4).1.2 with
            ctr := (extract_u64 (operator_in_loop is s 4).1.1
                (operator_in_loop is s 4).1.2.ctr).2 }), true)
      else
        (({ (extract_u64 (operator_in_loop is s 4).1.1 (operator_in_loop is s 4).1.2.ctr).1 with
            flags := is.flags },
          { (operator_in_loop is s 4).1.2 with
            ctr := (extract_u64 (operator_in_loop is s 4).1.1
                (operator_in_loop is s 4).1.2.ctr).2
            block_idx := NO_BLOCK }), false) := rfl

/-- The loop of line 239 changes `keysetup` only. -/
theorem operator_in_loop_frame (is : IStream) (s : BlaBla) (n : Nat) :
    (operator_in_loop is s n).1.2.block = s.block ∧
      (operator_in_loop is s n).1.2.block_idx = s.block_idx ∧
      (operator_in_loop is s n).1.2.ctr = s.ctr := by
  induction n with
  | zero => exact ⟨rfl, rfl, rfl⟩
  | succ n ih =>
    rw [operator_in_loop_succ]
    split_ifs
    · exact ih
    · exact ih

/-- While no extraction has thrown, the stream of the loop is the stream of the chain of
extractions; once one has thrown, the stream is the one that extraction left. -/
theorem operator_in_loop_stream (is : IStream) (s : BlaBla) (n : Nat) (hn : n ≤ 4) :
    ((operator_in_loop is s n).2 = false →
        (operator_in_loop is s n).1.1 = stream_before is s n ∧
          ∀ k, k < n → (stream_before is s (k + 1)).throws = false) ∧
      ((operator_in_loop is s n).2 = true →
        ∃ k, k < n ∧ (operator_in_loop is s n).1.1 = stream_before is s (k + 1) ∧
          (stream_before is s (k + 1)).throws = true) ∧
      (∀ i, i < 4 → rd (operator_in_loop is s n).1.2.keysetup i
        = if i < n then field_after is s i else rd s.keysetup i) := by
  induction n with
  | zero =>
    refine ⟨fun _ => ⟨rfl, fun k hk => absurd hk (Nat.not_lt_zero k)⟩,
      fun h => absurd (show false = true from h) (by decide), fun i _ => ?_⟩
    rw [if_neg (Nat.not_lt_zero i)]
    rfl
  | succ n ih =>
    obtain ⟨ih1, ih2, ih3⟩ := ih (by omega)
    rw [operator_in_loop_succ]
    by_cases hp : (operator_in_loop is s n).2 = true
    · rw [if_pos hp]
      obtain ⟨k, hk, hst, hthr⟩ := ih2 hp
      refine ⟨fun h => absurd hp (by rw [h]; decide), fun _ => ⟨k, by omega, hst, hthr⟩,
        fun i hi => ?_⟩
      rw [ih3 i hi]
      by_cases hin : i = n
      · subst hin
        rw [if_neg (Nat.lt_irrefl i), if_pos (Nat.lt_succ_self i)]
        have hbad : (stream_before is s i).good = false :=
          stream_before_not_good is s (k + 1) (throws_not_good _ hthr) i (by omega)
        have := (extract_u64_not_good_stays _ (serial_field s i) hbad).2.2
        unfold field_after
        rw [this]
        simp [serial_field, hi]
      · by_cases hlt : i < n
        · rw [if_pos hlt, if_pos (by omega)]
        · rw [if_neg hlt, if_neg (by omega)]
    · have hp2 : (operator_in_loop is s n).2 = false := by simpa using hp
      rw [if_neg hp]
      obtain ⟨hst, hno⟩ := ih1 hp2
      have hrd : rd (operator_in_loop is s n).1.2.keysetup n = serial_field s n := by
        rw [ih3 n (by omega), if_neg (Nat.lt_irrefl n)]
        simp [serial_field, show n < 4 by omega]
      rw [hst, hrd]
      refine ⟨fun h => ⟨rfl, fun k hk => ?_⟩, fun h => ⟨n, Nat.lt_succ_self n, rfl, h⟩,
        fun i hi => ?_⟩
      · by_cases hkn : k = n
        · subst hkn
          exact h
        · exact hno k (by omega)
      · show rd (wr _ n _) i = _
        by_cases hin : n = i
        · subst hin
          rw [rd_wr_same _ _ (by omega), if_pos (Nat.lt_succ_self n)]
          rfl
        · rw [rd_wr_ne _ _ hin, ih3 i hi]
          by_cases hlt : i < n
          · rw [if_pos hlt, if_pos (by omega)]
          · rw [if_neg hlt, if_neg (by omega)]

/-- What `operator>>` leaves behind, in terms of the chain of extractions: the cached
block is untouched; every field holds what its extraction stored or left; a call that
returns has run all five extractions without a throw, has put the flags back and has
stored `uint64_t(-1)` in `block_idx`; a call that throws stops at the first extraction
whose stream throws and leaves `block_idx` as it was. -/
theorem operator_in_spec (is : IStream) (s : BlaBla) :
    (operator_in is s).2.block = s.block ∧
      (∀ i, i < 5 → serial_field (operator_in is s).2 i = field_after is s i) ∧
      (operator_in_throws is s = false →
        (operator_in is s).1 = { stream_before is s 5 with flags := is.flags } ∧
          (operator_in is s).2.block_idx = NO_BLOCK ∧
          ∀ k, k < 5 → (stream_before is s (k + 1)).throws = false) ∧
      (operator_in_throws is s = true →
        (operator_in is s).2.block_idx = s.block_idx ∧
          ∃ k, k < 5 ∧ (operator_in is s).1 = stream_before is s (k + 1) ∧
            (stream_before is s (k + 1)).throws = true) := by
  obtain ⟨hb, hi, hc⟩ := operator_in_loop_frame is s 4
  obtain ⟨h1, h2, h3⟩ := operator_in_loop_stream is s 4 (Nat.le_refl 4)
  have hkey : ∀ i, i < 4 → rd (operator_in_loop is s 4).1.2.keysetup i = field_after is s i :=
    fun i hi4 => by rw [h3 i hi4, if_pos hi4]
  unfold operator_in operator_in_throws
  rw [operator_in_run_loop]
  by_cases hp : (operator_in_loop is s 4).2 = true
  · rw [if_pos hp]
    obtain ⟨k, hk, hst, hthr⟩ := h2 hp
    refine ⟨hb, fun i hi5 => ?_, fun h => absurd hp (by rw [h]; decide),
      fun _ => ⟨hi, k, by omega, hst, hthr⟩⟩
    by_cases hi4 : i < 4
    · simp only [serial_field, if_pos hi4]
      exact hkey i hi4
    · have h4 : i = 4 := by omega
      subst h4
      have hbad : (stream_before is s 4).good = false :=
        stream_before_not_good is s (k + 1) (throws_not_good _ hthr) 4 (by omega)
      have := (extract_u64_not_good_stays _ (serial_field s 4) hbad).2.2
      unfold field_after
      rw [this]
      simp only [serial_field, if_neg hi4]
      exact hc
  · have hp2 : (operator_in_loop is s 4).2 = false := by simpa using hp
    rw [if_neg hp]
    obtain ⟨hst, hno⟩ := h1 hp2
    have hs5 : (extract_u64 (operator_in_loop is s 4).1.1 (operator_in_loop is s 4).1.2.ctr).1
        = stream_before is s 5 := by
      rw [hst, hc]
      rfl
    have hv4 : (extract_u64 (operator_in_loop is s 4).1.1 (operator_in_loop is s 4).1.2.ctr).2
        = field_after is s 4 := by
      rw [hst, hc]
      rfl
    by_cases ht : (extract_u64 (operator_in_loop is s 4).1.1
        (operator_in_loop is s 4).1.2.ctr).1.throws = true
    · rw [if_pos ht]
      refine ⟨hb, fun i hi5 => ?_, fun h => absurd (show true = false from h) (by decide),
        fun _ => ⟨hi, 4, by decide, hs5, by rw [← hs5]; exact ht⟩⟩
      by_cases hi4 : i < 4
      · simp only [serial_field, if_pos hi4]
        exact hkey i hi4
      · have h4 : i = 4 := by omega
        subst h4
        simp only [serial_field, if_neg hi4]
        exact hv4
    · rw [if_neg ht]
      have ht2 : (stream_before is s 5).throws = false := by
        rw [← hs5]
        simpa using ht
      refine ⟨hb, fun i hi5 => ?_, fun _ => ⟨by rw [hs5], rfl, fun k hk => ?_⟩,
        fun h => absurd (show false = true from h) (by decide)⟩
      · by_cases hi4 : i < 4
        · simp only [serial_field, if_pos hi4]
          exact hkey i hi4
        · have h4 : i = 4 := by omega
          subst h4
          simp only [serial_field, if_neg hi4]
          exact hv4
      · by_cases hk4 : k = 4
        · subst hk4
          exact ht2
        · exact hno k (by omega)

theorem operator_in_block (is : IStream) (s : BlaBla) :
    (operator_in is s).2.block = s.block := (operator_in_spec is s).1

theorem operator_in_field (is : IStream) (s : BlaBla) (i : Nat) (hi : i < 5) :
    serial_field (operator_in is s).2 i
      = (extract_u64 (stream_before is s i) (serial_field s i)).2 :=
  (operator_in_spec is s).2.1 i hi

theorem operator_in_block_idx (is : IStream) (s : BlaBla) (hret : operator_in_throws is s = false) :
    (operator_in is s).2.block_idx = NO_BLOCK := ((operator_in_spec is s).2.2.1 hret).2.1

theorem operator_in_block_idx_thrown (is : IStream) (s : BlaBla)
    (hthr : operator_in_throws is s = true) :
    (operator_in is s).2.block_idx = s.block_idx := ((operator_in_spec is s).2.2.2 hthr).1

theorem operator_in_ctr_lt (is : IStream) (s : BlaBla) (h : s.ctr < W64) :
    (operator_in is s).2.ctr < W64 := by
  have h4 := operator_in_field is s 4 (by decide)
  have hs : ∀ t : BlaBla, serial_field t 4 = t.ctr := fun _ => rfl
  rw [hs, hs] at h4
  rw [h4]
  exact extract_u64_lt _ _ h

theorem operator_in_failbit (is : IStream) (s : BlaBla) (hret : operator_in_throws is s = false) :
    (operator_in is s).1.failbit = (extract_u64 (stream_before is s 4) s.ctr).1.failbit := by
  rw [((operator_in_spec is s).2.2.1 hret).1]
  rfl

theorem extract_u64_except (st : IStream) (v : Nat) :
    (extract_u64 st v).1.except_eofbit = st.except_eofbit ∧
      (extract_u64 st v).1.except_failbit = st.except_failbit := by
  unfold extract_u64
  simp only
  split_ifs <;> exact ⟨rfl, rfl⟩

theorem stream_before_except (is : IStream) (s : BlaBla) (j : Nat) :
    (stream_before is s j).except_eofbit = is.except_eofbit ∧
      (stream_before is s j).except_failbit = is.except_failbit := by
  induction j with
  | zero => exact ⟨rfl, rfl⟩
  | succ j ih =>
    have h := extract_u64_except (stream_before is s j) (serial_field s j)
    exact ⟨h.1.trans ih.1, h.2.trans ih.2⟩

/-- On a stream with an empty exception mask `operator>>` always returns. -/
theorem operator_in_returns_of_no_mask (is : IStream) (s : BlaBla)
    (he : is.except_eofbit = false) (hf : is.except_failbit = false) :
    operator_in_throws is s = false := by
  by_contra h
  have hthr : operator_in_throws is s = true := by simpa using h
  obtain ⟨k, _, _, hk⟩ := ((operator_in_spec is s).2.2.2 hthr).2
  have hm := stream_before_except is s (k + 1)
  unfold IStream.throws at hk
  rw [hm.1, hm.2, he, hf] at hk
  simp at hk

theorem Inv_operator_in (R : Nat) (is : IStream) (s : BlaBla) (h : Inv R s)
    (hret : operator_in_throws is s = false) : Inv R (operator_in is s).2 :=
  ⟨operator_in_ctr_lt is s h.1, fun hb => absurd (operator_in_block_idx is s hret) hb⟩

/-- In every reachable state `ctr` is a 64-bit value. -/
theorem Reachable.ctr_lt {R : Nat} {s : BlaBla} (h : Reachable R s) : s.ctr < W64 := by
  induction h with
  | seed s0 seedval stream _ _ => exact W64_pos
  | seed_seq s0 seeds _ => exact W64_pos
  | operator_call _ _ =>
    rw [operator_call_ctr]
    exact Nat.mod_lt _ W64_pos
  | discard n _ _ => exact Nat.mod_lt _ W64_pos
  | operator_in is _ ih => exact operator_in_ctr_lt is _ ih

/-- While no `operator>>` call is left by an exception, the cache stays valid. -/
theorem ReachableNoThrow.inv {R : Nat} {s : BlaBla} (h : ReachableNoThrow R s) : Inv R s := by
  induction h with
  | seed s0 seedval stream _ _ => exact Inv_seed R s0 seedval stream
  | seed_seq s0 seeds _ => exact Inv_seed_seq R s0 seeds
  | operator_call _ ih => exact Inv_operator_call R _ ih
  | discard n _ ih => exact Inv_discard R _ n ih
  | operator_in is hret _ ih => exact Inv_operator_in R is _ ih hret

theorem draw_value (R : Nat) (s : BlaBla) (h : Inv R s) (t : BlaBla)
    (hk : ∀ i, i < 4 → rd t.keysetup i = rd s.keysetup i) (hb : t.block_idx = s.ctr / 16) :
    (s.operator_call R).1 = rd (generate_block R t).block (s.ctr % 16) := by
  have hi : Inv R (s.operator_call R).2 := Inv_operator_call R s h
  have hidx : (s.operator_call R).2.block_idx = s.ctr / 16 := operator_call_block_idx R s
  have hv : (s.operator_call R).2.block = (generate_block R (s.operator_call R).2).block :=
    hi.2 (by rw [hidx]; exact div16_ne_NO_BLOCK h.1)
  have hc : (generate_block R (s.operator_call R).2).block = (generate_block R t).block :=
    generate_block_congr R (s.operator_call R).2 t
      (fun i hi4 => by rw [operator_call_keysetup, hk i hi4]) (by rw [hidx, hb])
  rw [operator_call_fst, hv, hc]

theorem draw_eq_of_key_ctr (R : Nat) (s t : BlaBla) (hs : Inv R s) (ht : Inv R t)
    (hk : ∀ i, i < 4 → rd s.keysetup i = rd t.keysetup i) (hc : s.ctr = t.ctr) :
    (s.operator_call R).1 = (t.operator_call R).1 := by
  rw [draw_value R s hs { t with block_idx := t.ctr / 16 } (fun i hi => (hk i hi).symm)
      (by rw [hc]),
    draw_value R t ht { t with block_idx := t.ctr / 16 } (fun _ _ => rfl) rfl, hc]

theorem draws_inv (R : Nat) (n : Nat) (s : BlaBla) (h : Inv R s) : Inv R (s.draws R n) := by
  induction n generalizing s with
  | zero => exact h
  | succ n ih => exact ih _ (Inv_operator_call R s h)

theorem draws_keysetup (R : Nat) (n : Nat) (s : BlaBla) : (s.draws R n).keysetup = s.keysetup := by
  induction n generalizing s with
  | zero => rfl
  | succ n ih =>
    show ((s.operator_call R).2.draws R n).keysetup = s.keysetup
    rw [ih, operator_call_keysetup]

theorem draws_ctr (R : Nat) (n : Nat) (s : BlaBla) (h : s.ctr < W64) :
    (s.draws R n).ctr = (s.ctr + n) % W64 := by
  induction n generalizing s with
  | zero => exact (Nat.mod_eq_of_lt h).symm
  | succ n ih =>
    show ((s.operator_call R).2.draws R n).ctr = (s.ctr + (n + 1)) % W64
    rw [ih _ (by rw [operator_call_ctr]; exact Nat.mod_lt _ W64_pos), operator_call_ctr,
      Nat.mod_add_mod]
    congr 1
    omega

theorem draws_reachable (R : Nat) (n : Nat) (s : BlaBla) (h : Reachable R s) :
    Reachable R (s.draws R n) := by
  induction n generalizing s with
  | zero => exact h
  | succ n ih => exact ih _ (Reachable.operator_call h)

theorem operator_eq_iff (lhs rhs : BlaBla) :
    operator_eq lhs rhs = true ↔
      (∀ i, i < 4 → rd lhs.keysetup i = rd rhs.keysetup i) ∧ lhs.ctr = rhs.ctr := by
  unfold operator_eq
  constructor
  · intro h
    by_cases hany : (List.range 4).any (fun i => rd lhs.keysetup i != rd rhs.keysetup i) = true
    · rw [if_pos hany] at h
      exact absurd h (by decide)
    · rw [if_neg hany] at h
      refine ⟨?_, by simpa using h⟩
      intro i hi
      by_contra hne
      apply hany
      rw [List.any_eq_true]
      exact ⟨i, List.mem_range.mpr hi, by simpa using hne⟩
  · rintro ⟨hk, hc⟩
    have hany : ¬ (List.range 4).any (fun i => rd lhs.keysetup i != rd rhs.keysetup i) = true := by
      rw [List.any_eq_true]
      rintro ⟨i, hi, hne⟩
      have := hk i (List.mem_range.mp hi)
      simp [this] at hne
    rw [if_neg hany]
    simpa using hc

/-! ## Claims about drawing, skipping and comparing -/

/-- In every state reached without an `operator>>` call that throws, with key words `k`
and counter `c`, a draw returns word `c mod 16` of what `generate_block` computes for
`(k, c div 16)` (for any generator `t` that holds those key words and that block index),
leaves `ctr` at `(c + 1) mod 2^64` and leaves the four key words unchanged. -/
theorem draw_is_block_word_without_throw (R : Nat) (s : BlaBla) (h : ReachableNoThrow R s) :
    (∀ t : BlaBla, (∀ i, i < 4 → rd t.keysetup i = rd s.keysetup i) →
        t.block_idx = s.ctr / 16 →
        (s.operator_call R).1 = rd (generate_block R t).block (s.ctr % 16)) ∧
      (s.operator_call R).2.ctr = (s.ctr + 1) % W64 ∧
      (∀ i, i < 4 → rd (s.operator_call R).2.keysetup i = rd s.keysetup i) :=
  ⟨fun t hk hb => draw_value R s h.inv t hk hb, operator_call_ctr R s,
    fun i _ => by rw [operator_call_keysetup]⟩

/-- For every state `S` reached without an `operator>>` call that throws and every `n`,
`S.discard(n)` followed by one draw returns the value of the last of `n + 1` draws from a
copy of `S`. -/
theorem discard_eq_draws_without_throw (R : Nat) (s : BlaBla) (h : ReachableNoThrow R s)
    (n : Nat) :
    ((s.discard n).operator_call R).1 = ((s.draws R n).operator_call R).1 :=
  draw_eq_of_key_ctr R (s.discard n) (s.draws R n) (Inv_discard R s n h.inv)
    (draws_inv R n s h.inv) (fun i _ => by rw [draws_keysetup]; rfl)
    (by rw [draws_ctr R n s h.inv.1]; rfl)

/-- In every state reached from a seeding by draws, discards, re-seedings and calls of
`operator>>` that return, a cached block index other than `2^64 - 1` means that the 16
cached words are what `generate_block` computes for that index under the current key
words. -/
theorem cache_valid_without_throw (R : Nat) (s : BlaBla) (h : ReachableNoThrow R s)
    (hb : s.block_idx ≠ NO_BLOCK) :
    ∀ i, i < 16 → rd s.block i = rd (generate_block R s).block i := by
  intro i _
  rw [← h.inv.2 hb]

/-- C4: `operator==` is true exactly when key words 0..3 agree and `ctr` agrees; replacing
the cached block and the cached block index of either operand never changes the result;
`operator!=` is the negation. -/
theorem operator_eq_key_ctr_only (lhs rhs : BlaBla) :
    (operator_eq lhs rhs = true ↔
        (∀ i, i < 4 → rd lhs.keysetup i = rd rhs.keysetup i) ∧ lhs.ctr = rhs.ctr) ∧
      (∀ (b1 b2 : Words 16) (i1 i2 : Nat),
        operator_eq { lhs with block := b1, block_idx := i1 }
          { rhs with block := b2, block_idx := i2 } = operator_eq lhs rhs) ∧
      operator_ne lhs rhs = !(operator_eq lhs rhs) :=
  ⟨operator_eq_iff lhs rhs, fun _ _ _ _ => rfl, rfl⟩

/-- Two generators reached without an `operator>>` call that throws, with equal key words
and equal `ctr`, whatever their cached blocks and cached block indices, compare equal, and
after any number `n` of further draws on both the next draw returns the same word from
both. -/
theorem equal_draw_alike_without_throw (R : Nat) (s t : BlaBla) (hs : ReachableNoThrow R s)
    (ht : ReachableNoThrow R t) (hk : ∀ i, i < 4 → rd s.keysetup i = rd t.keysetup i)
    (hc : s.ctr = t.ctr) :
    operator_eq s t = true ∧
      ∀ n, ((s.draws R n).operator_call R).1 = ((t.draws R n).operator_call R).1 := by
  refine ⟨(operator_eq_iff s t).mpr ⟨hk, hc⟩, fun n => ?_⟩
  apply draw_eq_of_key_ctr R _ _ (draws_inv R n s hs.inv) (draws_inv R n t ht.inv)
  · intro i hi
    rw [draws_keysetup, draws_keysetup]
    exact hk i hi
  · rw [draws_ctr R n s hs.inv.1, draws_ctr R n t ht.inv.1, hc]

/-- C6: for every `seedval`, `stream` and `i`, the draw number `i` after
`seed(seedval, stream)` is the same word whatever the two generators held before they
were seeded. -/
theorem seed_determines_sequence (R : Nat) (s0 t0 : BlaBla) (seedval stream : Nat) (i : Nat) :
    (((s0.seed seedval stream).draws R i).operator_call R).1
      = (((t0.seed seedval stream).draws R i).operator_call R).1 := by
  apply draw_eq_of_key_ctr R _ _ (draws_inv R i _ (Inv_seed R s0 seedval stream))
    (draws_inv R i _ (Inv_seed R t0 seedval stream))
  · intro j hj
    rw [draws_keysetup, draws_keysetup]
    have h8 : j < 8 := by omega
    simp only [BlaBla.seed]
    by_cases h3 : j = 3
    · subst h3
      rw [rd_wr_same _ _ (by decide), rd_wr_same _ _ (by decide)]
    rw [rd_wr_ne _ _ (Ne.symm h3), rd_wr_ne _ _ (Ne.symm h3)]
    by_cases h2 : j = 2
    · subst h2
      rw [rd_wr_same _ _ (by decide), rd_wr_same _ _ (by decide)]
    rw [rd_wr_ne _ _ (Ne.symm h2), rd_wr_ne _ _ (Ne.symm h2)]
    by_cases h1 : j = 1
    · subst h1
      rw [rd_wr_same _ _ (by decide), rd_wr_same _ _ (by decide)]
    rw [rd_wr_ne _ _ (Ne.symm h1), rd_wr_ne _ _ (Ne.symm h1)]
    have h0 : j = 0 := by omega
    subst h0
    rw [rd_wr_same _ _ (by decide), rd_wr_same _ _ (by decide)]
  · rw [draws_ctr R i _ (Inv_seed R s0 seedval stream).1,
      draws_ctr R i _ (Inv_seed R t0 seedval stream).1]
    rfl

/-- C10: after `seed(seedval, stream)`, from any prior state, key words 0 and 1 are the
constants `0x1fe2c9482a400d2e` and `0xe6c7993da713d61d`, key word 2 is `seedval`, key
word 3 is `stream`, `ctr` is 0 and the cached block index is `2^64 - 1`. -/
theorem seed_postcondition (s0 : BlaBla) (seedval stream : Nat) :
    rd (s0.seed seedval stream).keysetup 0 = 0x1fe2c9482a400d2e ∧
      rd (s0.seed seedval stream).keysetup 1 = 0xe6c7993da713d61d ∧
      rd (s0.seed seedval stream).keysetup 2 = seedval ∧
      rd (s0.seed seedval stream).keysetup 3 = stream ∧
      (s0.seed seedval stream).ctr = 0 ∧
      (s0.seed seedval stream).block_idx = 2 ^ 64 - 1 := by
  have hk : (s0.seed seedval stream).keysetup
      = wr (wr (wr (wr s0.keysetup 0 0x1fe2c9482a400d2e) 1 0xe6c7993da713d61d) 2 seedval) 3
          stream := rfl
  rw [hk]
  refine ⟨?_, ?_, ?_, ?_, rfl, rfl⟩
  · rw [rd_wr_ne _ _ (by decide), rd_wr_ne _ _ (by decide), rd_wr_ne _ _ (by decide),
      rd_wr_same _ _ (by decide)]
  · rw [rd_wr_ne _ _ (by decide), rd_wr_ne _ _ (by decide), rd_wr_same _ _ (by decide)]
  · rw [rd_wr_ne _ _ (by decide), rd_wr_same _ _ (by decide)]
  · rw [rd_wr_same _ _ (by decide)]

/-! ## `generate_block` against the specification of the permutation -/

theorem wr_data {n : Nat} (arr : Words n) (i v : Nat) : (wr arr i v).data = arr.data.set i v :=
  rfl

theorem rd_data {n : Nat} (arr : Words n) (i : Nat) : rd arr i = arr.data.getD i 0 := rfl

theorem Words.data_inj {n : Nat} {a b : Words n} (h : a.data = b.data) : a = b := by
  cases a
  cases b
  cases h
  rfl

theorem mix_func_eq_writes (a b c d : Nat) (blk : Words 16) (ha : a < 16) (hb : b < 16)
    (hc : c < 16) (hd : d < 16) (hab : a ≠ b) (hac : a ≠ c) (had : a ≠ d) (hbc : b ≠ c)
    (hbd : b ≠ d) (hcd : c ≠ d) :
    mix_func a b c d blk =
      wr (wr (wr (wr blk a (spec_quarter_round (rd blk a, rd blk b, rd blk c, rd blk d)).1)
        b (spec_quarter_round (rd blk a, rd blk b, rd blk c, rd blk d)).2.1)
        c (spec_quarter_round (rd blk a, rd blk b, rd blk c, rd blk d)).2.2.1)
        d (spec_quarter_round (rd blk a, rd blk b, rd blk c, rd blk d)).2.2.2 := by
  apply Words.ext_rd
  intro j hj
  by_cases h1 : d = j
  · subst h1
    simp only [mix_func, spec_quarter_round, rd_wr, W64, ha, hb, hc, hd, hab, hac, had, hbc,
      hbd, hcd, Ne.symm hab, Ne.symm hac, Ne.symm had, Ne.symm hbc, Ne.symm hbd, Ne.symm hcd,
      and_true, and_false, if_true, if_false, true_and, false_and, and_self]
  · by_cases h2 : c = j
    · subst h2
      simp only [mix_func, spec_quarter_round, rd_wr, W64, ha, hb, hc, hd, hab, hac, had, hbc,
        hbd, hcd, Ne.symm hab, Ne.symm hac, Ne.symm had, Ne.symm hbc, Ne.symm hbd,
        Ne.symm hcd, and_true, and_false, if_true, if_false, true_and, false_and, and_self]
    · by_cases h3 : b = j
      · subst h3
        simp only [mix_func, spec_quarter_round, rd_wr, W64, ha, hb, hc, hd, hab, hac, had,
          hbc, hbd, hcd, Ne.symm hab, Ne.symm hac, Ne.symm had, Ne.symm hbc, Ne.symm hbd,
          Ne.symm hcd, and_true, and_false, if_true, if_false, true_and, false_and, and_self]
      · by_cases h4 : a = j
        · subst h4
          simp only [mix_func, spec_quarter_round, rd_wr, W64, ha, hb, hc, hd, hab, hac, had,
            hbc, hbd, hcd, Ne.symm hab, Ne.symm hac, Ne.symm had, Ne.symm hbc, Ne.symm hbd,
            Ne.symm hcd, and_true, and_false, if_true, if_false, true_and, false_and,
            and_self]
        · simp only [mix_func, spec_quarter_round, rd_wr, W64, ha, hb, hc, hd, hab, hac, had,
            hbc, hbd, hcd, h1, h2, h3, h4, Ne.symm hab, Ne.symm hac, Ne.symm had, Ne.symm hbc,
            Ne.symm hbd, Ne.symm hcd, and_true, and_false, if_true, if_false, true_and,
            false_and, and_self]

theorem mix_func_data (a b c d : Nat) (blk : Words 16) (ha : a < 16) (hb : b < 16)
    (hc : c < 16) (hd : d < 16) (hab : a ≠ b) (hac : a ≠ c) (had : a ≠ d) (hbc : b ≠ c)
    (hbd : b ≠ d) (hcd : c ≠ d) :
    (mix_func a b c d blk).data = spec_mix (a, b, c, d) blk.data := by
  rw [mix_func_eq_writes a b c d blk ha hb hc hd hab hac had hbc hbd hcd]
  rfl

theorem blabla_core_data (R : Nat) (blk : Words 16) :
    (blabla_core R blk).data = spec_core R blk.data := by
  induction R with
  | zero => rfl
  | succ R ih =>
    unfold blabla_core at ih ⊢
    rw [for_loop_succ]
    unfold spec_core at ih ⊢
    rw [Function.iterate_succ_apply', ← ih]
    simp only [spec_round, spec_schedule, List.foldl]
    rw [mix_func_data 3 4 9 14 _ (by decide) (by decide) (by decide) (by decide) (by decide)
        (by decide) (by decide) (by decide) (by decide) (by decide),
      mix_func_data 2 7 8 13 _ (by decide) (by decide) (by decide) (by decide) (by decide)
        (by decide) (by decide) (by decide) (by decide) (by decide),
      mix_func_data 1 6 11 12 _ (by decide) (by decide) (by decide) (by decide) (by decide)
        (by decide) (by decide) (by decide) (by decide) (by decide),
      mix_func_data 0 5 10 15 _ (by decide) (by decide) (by decide) (by decide) (by decide)
        (by decide) (by decide) (by decide) (by decide) (by decide),
      mix_func_data 3 7 11 15 _ (by decide) (by decide) (by decide) (by decide) (by decide)
        (by decide) (by decide) (by decide) (by decide) (by decide),
      mix_func_data 2 6 10 14 _ (by decide) (by decide) (by decide) (by decide) (by decide)
        (by decide) (by decide) (by decide) (by decide) (by decide),
      mix_func_data 1 5 9 13 _ (by decide) (by decide) (by decide) (by decide) (by decide)
        (by decide) (by decide) (by decide) (by decide) (by decide),
      mix_func_data 0 4 8 12 _ (by decide) (by decide) (by decide) (by decide) (by decide)
        (by decide) (by decide) (by decide) (by decide) (by decide)]

theorem generate_input_data (k : Words 8) (b : Nat) (hb : b + 1 < 2 ^ 64) :
    (generate_input k b).data = spec_input (rd k 0) (rd k 1) (rd k 2) (rd k 3) b := by
  have hm : (b + 1) % W64 = b + 1 := Nat.mod_eq_of_lt hb
  simp only [generate_input, for_loop, hm]
  rfl

theorem feed_forward_rd (input blk : Words 16) (n : Nat) (hn : n ≤ 16) (j : Nat) :
    rd (for_loop n (fun i block => wr block i ((rd block i + rd input i) % W64)) blk) j
      = if j < n then (rd blk j + rd input j) % W64 else rd blk j := by
  induction n generalizing j with
  | zero => simp [for_loop]
  | succ n ih =>
    rw [for_loop_succ, rd_wr, ih (by omega) j, ih (by omega) n]
    by_cases h : n = j
    · subst h
      simp [show n < 16 by omega]
    · have h1 : (j < n + 1) = (j < n) := by
        apply propext
        constructor <;> intro h2 <;> omega
      simp [h, h1]

theorem rd_eq_getElem {n : Nat} (arr : Words n) (i : Nat) (h : i < arr.data.length) :
    rd arr i = arr.data[i] := by
  simp [rd, List.getD_eq_getElem?_getD, h]

theorem feed_forward_data (input blk : Words 16) :
    (for_loop 16 (fun i block => wr block i ((rd block i + rd input i) % W64)) blk).data
      = List.zipWith (fun x y => (x + y) % 2 ^ 64) blk.data input.data := by
  apply List.ext_getElem
  · rw [Words.size_eq, List.length_zipWith, Words.size_eq, Words.size_eq]
    rfl
  · intro i h1 h2
    have hi : i < 16 := by rw [Words.size_eq] at h1; exact h1
    have hb : i < blk.data.length := by rw [Words.size_eq]; exact hi
    have hin : i < input.data.length := by rw [Words.size_eq]; exact hi
    rw [← rd_eq_getElem _ i h1, feed_forward_rd input blk 16 (Nat.le_refl 16) i, if_pos hi,
      List.getElem_zipWith, rd_eq_getElem blk i hb, rd_eq_getElem input i hin]
    rfl

/-- C9: for every key, every block index `b` below `2^64 - 1` and every round count `R`,
the block `generate_block` stores is `spec_block`: the `R`-fold eight-quarter-round core
applied to `input = [4 constants, k0..k3, 5 constants, b + 1, 0, 0]`, with `input` added
back elementwise modulo `2^64`. -/
theorem generate_block_eq_spec (R : Nat) (s : BlaBla) (hb : s.block_idx + 1 < 2 ^ 64) :
    (generate_block R s).block.data
      = spec_block R (rd s.keysetup 0) (rd s.keysetup 1) (rd s.keysetup 2) (rd s.keysetup 3)
          s.block_idx := by
  rw [generate_block_block, feed_forward_data, blabla_core_data,
    generate_input_data s.keysetup s.block_idx hb]
  rfl

/-- Witness for C9: one round, key words from `seed(1, 2)`, block index 5. -/
theorem generate_block_eq_spec_witness :
    (5 : Nat) + 1 < 2 ^ 64 ∧
      (generate_block 1 { (zero_state.seed 1 2) with block_idx := 5 }).block.data
        = spec_block 1 0x1fe2c9482a400d2e 0xe6c7993da713d61d 1 2 5 :=
  ⟨by decide,
    generate_block_eq_spec 1 { (zero_state.seed 1 2) with block_idx := 5 } (by decide)⟩

set_option maxRecDepth 100000 in
/-- C7 on the code: the text `operator<<` writes for the generator seeded with (1, 2) is
`2297620071696043310 16629428639163995677 1 2 0`; `operator>>` reads it into a generator
seeded with (7, 9), extracts key word 0, stops at the space with `failbit` set, stores 0 in
key word 1 and leaves key words 2, 3 and `ctr` as they were, so the two generators do not
compare equal. -/
theorem round_trip_fails_at_first_space :
    (operator_out OStream.fresh (zero_state.seed 1 2)).out
        = "2297620071696043310 16629428639163995677 1 2 0".toList ∧
      (operator_in (IStream.of_text (operator_out OStream.fresh (zero_state.seed 1 2)).out)
          (zero_state.seed 7 9)).1.failbit = true ∧
      (operator_in (IStream.of_text (operator_out OStream.fresh (zero_state.seed 1 2)).out)
          (zero_state.seed 7 9)).2.keysetup.data
        = [2297620071696043310, 0, 7, 9, 0, 0, 0, 0] ∧
      operator_eq (zero_state.seed 1 2)
        (operator_in (IStream.of_text (operator_out OStream.fresh (zero_state.seed 1 2)).out)
          (zero_state.seed 7 9)).2 = false := by
  refine ⟨?_, ?_, ?_, ?_⟩ <;> decide

/-! ## What a failed `operator>>` leaves behind -/

set_option maxRecDepth 100000 in
/-- C8 on the code: reading the one-field text `7` into the generator seeded with (1, 2)
fails (`failbit` is set), yet key word 0, which held `0x1fe2c9482a400d2e`, now holds 7. -/
theorem failed_read_overwrites_key_word :
    (operator_in (IStream.of_text "7".toList) (zero_state.seed 1 2)).1.failbit = true ∧
      rd (zero_state.seed 1 2).keysetup 0 = 0x1fe2c9482a400d2e ∧
      rd (operator_in (IStream.of_text "7".toList) (zero_state.seed 1 2)).2.keysetup 0 = 7 := by
  refine ⟨?_, ?_, ?_⟩ <;> decide

/-- A read whose chain of extractions ends with `failbit` set ends with `failbit` set or
by an exception; with `eofbit` outside the exception mask, `failbit` is set in both
cases. -/
theorem operator_in_failbit_of_chain (is : IStream) (s : BlaBla)
    (h5 : (stream_before is s 5).failbit = true) :
    ((operator_in is s).1.failbit = true ∨ operator_in_throws is s = true) ∧
      (is.except_eofbit = false → (operator_in is s).1.failbit = true) := by
  by_cases hthr : operator_in_throws is s = true
  · refine ⟨Or.inr hthr, fun he => ?_⟩
    obtain ⟨k, _, hst, hk⟩ := ((operator_in_spec is s).2.2.2 hthr).2
    rw [hst]
    unfold IStream.throws at hk
    rw [(stream_before_except is s (k + 1)).1, he] at hk
    have hk2 : ((stream_before is s (k + 1)).failbit
        && (stream_before is s (k + 1)).except_failbit) = true := by simpa using hk
    exact (Bool.and_eq_true _ _ ▸ hk2).1
  · have hret : operator_in_throws is s = false := by simpa using hthr
    have hf : (operator_in is s).1.failbit = true := by
      rw [((operator_in_spec is s).2.2.1 hret).1]
      exact h5
    exact ⟨Or.inl hf, fun _ => hf⟩

/-- C8 as amended: `operator>>` extracts the five fields one after another straight into
key words 0..3 and `ctr`.  For every stream and generator, every field holds afterwards
what its own extraction stored.  If the stream is no longer `good()` when the extraction
of field `j` begins, then field `j` and all later fields keep the values they had before
the read, and the read ends with `failbit` set or by an exception (with `failbit` set
whenever `eofbit` is not in the exception mask).  A read that returns leaves the cached
block index at `2^64 - 1`. -/
theorem operator_in_keeps_fields_after_failure (is : IStream) (s : BlaBla) :
    (∀ i, i < 5 → serial_field (operator_in is s).2 i
        = (extract_u64 (stream_before is s i) (serial_field s i)).2) ∧
      (∀ j, j < 5 → (stream_before is s j).good = false →
        (∀ i, j ≤ i → i < 5 → serial_field (operator_in is s).2 i = serial_field s i) ∧
          ((operator_in is s).1.failbit = true ∨ operator_in_throws is s = true) ∧
          (is.except_eofbit = false → (operator_in is s).1.failbit = true)) ∧
      (operator_in_throws is s = false → (operator_in is s).2.block_idx = NO_BLOCK) := by
  refine ⟨fun i hi => operator_in_field is s i hi, fun j hj hbad => ⟨?_, ?_⟩,
    fun hret => operator_in_block_idx is s hret⟩
  · intro i hji hi
    rw [operator_in_field is s i hi]
    exact (extract_u64_not_good_stays _ _ (stream_before_not_good is s j hbad i hji)).2.2
  · exact operator_in_failbit_of_chain is s
      (extract_u64_not_good_stays _ _ (stream_before_not_good is s j hbad 4 (by omega))).2.1

set_option maxRecDepth 100000 in
/-- Instance of the amended C8: on the text `7` the stream is at end of input when the
extraction of field 1 begins, so fields 1..4 keep their values and `failbit` is set. -/
theorem operator_in_keeps_fields_after_failure_witness :
    (stream_before (IStream.of_text "7".toList) (zero_state.seed 1 2) 1).good = false ∧
      (∀ i, 1 ≤ i → i < 5 →
        serial_field (operator_in (IStream.of_text "7".toList) (zero_state.seed 1 2)).2 i
          = serial_field (zero_state.seed 1 2) i) ∧
      (operator_in (IStream.of_text "7".toList) (zero_state.seed 1 2)).1.failbit = true :=
  ⟨by decide,
    ((operator_in_keeps_fields_after_failure (IStream.of_text "7".toList)
      (zero_state.seed 1 2)).2.1 1 (by decide) (by decide)).1,
    ((operator_in_keeps_fields_after_failure (IStream.of_text "7".toList)
      (zero_state.seed 1 2)).2.1 1 (by decide) (by decide)).2.2 rfl⟩

/-! ## Decimal text and the text `operator<<` writes -/

theorem digit_char_isDigit (d : Nat) (h : d < 10) : (Char.ofNat (48 + d)).isDigit = true := by
  interval_cases d <;> decide

theorem to_decimal_aux_digits (fuel v : Nat) (acc : List Char)
    (hacc : ∀ c ∈ acc, c.isDigit = true) : ∀ c ∈ to_decimal_aux fuel v acc, c.isDigit = true := by
  induction fuel generalizing v acc with
  | zero => exact hacc
  | succ fuel ih =>
    have hcons : ∀ c ∈ Char.ofNat (48 + v % 10) :: acc, c.isDigit = true := by
      intro c hc
      rcases List.mem_cons.mp hc with h | h
      · rw [h]
        exact digit_char_isDigit _ (Nat.mod_lt _ (by decide))
      · exact hacc c h
    unfold to_decimal_aux
    split_ifs
    · exact hcons
    · exact ih _ _ hcons

theorem to_decimal_aux_ne_nil (fuel v : Nat) (acc : List Char) (h : 0 < fuel ∨ acc ≠ []) :
    to_decimal_aux fuel v acc ≠ [] := by
  induction fuel generalizing v acc with
  | zero =>
    rcases h with h | h
    · exact absurd h (by decide)
    · exact h
  | succ fuel ih =>
    unfold to_decimal_aux
    split_ifs
    · exact List.cons_ne_nil _ _
    · exact ih _ _ (Or.inr (List.cons_ne_nil _ _))

theorem to_decimal_digits (v : Nat) : ∀ c ∈ to_decimal v, c.isDigit = true :=
  to_decimal_aux_digits 20 v [] (fun _ h => absurd h (List.not_mem_nil _))

theorem to_decimal_ne_nil (v : Nat) : to_decimal v ≠ [] :=
  to_decimal_aux_ne_nil 20 v [] (Or.inl (by decide))

theorem put_padded_width_zero (os : OStream) (text : List Char) (h : os.width = 0) :
    os.put_padded text = { os with out := os.out ++ text, width := 0 } := by
  unfold OStream.put_padded
  simp [h]

/-- A locale without digit groups writes the digits as they are. -/
theorem add_grouping_nil (sep : Char) (fuel : Nat) (digits : List Char) :
    add_grouping sep fuel [] digits = digits := by
  cases fuel <;> rfl

theorem operator_out_fresh (s : BlaBla) :
    (operator_out OStream.fresh s).out
      = to_decimal (rd s.keysetup 0) ++ ' ' :: (to_decimal (rd s.keysetup 1) ++ ' ' ::
          (to_decimal (rd s.keysetup 2) ++ ' ' :: (to_decimal (rd s.keysetup 3) ++ ' ' ::
            to_decimal s.ctr))) := by
  simp only [operator_out, for_loop, OStream.put_u64, OStream.put_char, OStream.fresh]
  simp [put_padded_width_zero, add_grouping_nil]

/-- Extraction without `skipws` from a good stream whose text starts with a nonempty run of
digits followed by a space: the digits are consumed and the stream stops at the space,
not at end of input. -/
theorem extract_u64_digits_then_space (is : IStream) (val : Nat) (ds rest : List Char)
    (hg : is.good = true) (hf : is.flags.skipws = false) (hb : is.buf = ds ++ ' ' :: rest)
    (hd : ∀ c ∈ ds, c.isDigit = true) (hne : ds ≠ []) :
    (extract_u64 is val).1.buf = ' ' :: rest ∧ (extract_u64 is val).1.eofbit = false ∧
      (extract_u64 is val).1.flags = is.flags := by
  have hgood : (is.eofbit || is.failbit) = false := by
    unfold IStream.good at hg
    cases he : is.eofbit <;> cases hfl : is.failbit <;> simp [he, hfl] at hg ⊢
  obtain ⟨c, tl, rfl⟩ := List.exists_cons_of_ne_nil hne
  have hc : c.isDigit = true := hd c (List.mem_cons_self _ _)
  have hminus : ((c :: tl ++ ' ' :: rest).head? == some '-') = false := by
    have hne1 : c ≠ '-' := by
      rintro rfl
      exact absurd hc (by decide)
    simp [hne1]
  have hplus : ((c :: tl ++ ' ' :: rest).head? == some '+') = false := by
    have hne2 : c ≠ '+' := by
      rintro rfl
      exact absurd hc (by decide)
    simp [hne2]
  have htake : List.takeWhile Char.isDigit (c :: tl ++ ' ' :: rest) = c :: tl := by
    rw [List.takeWhile_append_of_pos hd]
    simp [List.takeWhile_cons_of_neg (show ¬ Char.isDigit ' ' = true by decide)]
  have hdrop : List.dropWhile Char.isDigit (c :: tl ++ ' ' :: rest) = ' ' :: rest := by
    rw [List.dropWhile_append_of_pos hd]
    exact List.dropWhile_cons_of_neg (show ¬ Char.isDigit ' ' = true by decide)
  unfold extract_u64
  rw [if_neg (by rw [hgood]; decide)]
  simp only [hf, hb, Bool.false_and, if_false, Bool.false_eq_true]
  simp only [hminus, hplus, Bool.or_self, Bool.false_eq_true, if_false, htake, hdrop,
    List.isEmpty_cons]
  split_ifs <;> exact ⟨rfl, rfl, rfl⟩

/-- Extraction without `skipws` from a good stream whose next character is a space: no digit
is read, `failbit` is set and 0 is stored. -/
theorem extract_u64_at_space (is : IStream) (val : Nat) (rest : List Char)
    (hg : is.good = true) (hf : is.flags.skipws = false) (hb : is.buf = ' ' :: rest) :
    (extract_u64 is val).1.failbit = true ∧ (extract_u64 is val).2 = 0 := by
  have hgood : (is.eofbit || is.failbit) = false := by
    unfold IStream.good at hg
    cases he : is.eofbit <;> cases hfl : is.failbit <;> simp [he, hfl] at hg ⊢
  have hminus : ((' ' :: rest).head? == some '-') = false := by
    simp
  have hplus : ((' ' :: rest).head? == some '+') = false := by
    simp
  have htake : List.takeWhile Char.isDigit (' ' :: rest) = [] :=
    List.takeWhile_cons_of_neg (show ¬ Char.isDigit ' ' = true by decide)
  unfold extract_u64
  rw [if_neg (by rw [hgood]; decide)]
  simp only [hf, hb, Bool.false_and, if_false, Bool.false_eq_true, hminus, hplus, Bool.or_self,
    htake, List.isEmpty_nil, if_true]
  exact ⟨trivial, trivial⟩

/-- A text that starts with a nonempty run of digits followed by a space: when the
extraction of field 2 begins the stream is no longer `good()`. -/
theorem stream_not_good_after_space (txt ds rest : List Char) (t : BlaBla)
    (htxt : txt = ds ++ ' ' :: rest) (hd : ∀ c ∈ ds, c.isDigit = true) (hne : ds ≠ []) :
    (stream_before (IStream.of_text txt) t 2).good = false := by
  have h0g : (stream_before (IStream.of_text txt) t 0).good = true := rfl
  have h0f : (stream_before (IStream.of_text txt) t 0).flags.skipws = false := rfl
  have h0b : (stream_before (IStream.of_text txt) t 0).buf = ds ++ ' ' :: rest := htxt
  obtain ⟨h1b, h1e, h1f⟩ := extract_u64_digits_then_space _ (serial_field t 0) _ _ h0g h0f h0b
    hd hne
  by_cases h1g : (stream_before (IStream.of_text txt) t 1).good = true
  · have h1s : (stream_before (IStream.of_text txt) t 1).flags.skipws = false :=
      (congrArg fmtflags.skipws h1f).trans h0f
    have h2 := extract_u64_at_space (stream_before (IStream.of_text txt) t 1)
      (serial_field t 1) _ h1g h1s h1b
    show (extract_u64 (stream_before (IStream.of_text txt) t 1) (serial_field t 1)).1.good
      = false
    simp [IStream.good, h2.1]
  · have h1n : (stream_before (IStream.of_text txt) t 1).good = false := by
      simpa using h1g
    exact stream_before_not_good _ t 1 h1n 2 (by decide)

/-- The round trip fails for every generator: whatever state `s` is written by
`operator<<` to a fresh stream and whatever generator `t` the text is read into,
`operator>>` ends with `failbit` set. -/
theorem round_trip_always_fails (s t : BlaBla) :
    (operator_in (IStream.of_text (operator_out OStream.fresh s).out) t).1.failbit = true := by
  rw [operator_in_failbit _ _ (operator_in_returns_of_no_mask _ _ rfl rfl)]
  exact (extract_u64_not_good_stays _ _ (stream_before_not_good _ t 2
    (stream_not_good_after_space _ _ _ t (operator_out_fresh s) (to_decimal_digits _)
      (to_decimal_ne_nil _)) 4 (by decide))).2.1

/-! ## Skipping ahead and the position counter -/

theorem operator_call_traced_fst (R : Nat) (s : BlaBla) :
    (s.operator_call_traced R).1 = s.operator_call R := by
  unfold BlaBla.operator_call_traced BlaBla.operator_call
  by_cases h : s.ctr / 16 ≠ s.block_idx <;> simp [h]

theorem operator_call_traced_calls (R : Nat) (s : BlaBla) :
    (s.operator_call_traced R).2 = if s.ctr / 16 = s.block_idx then 0 else 1 := by
  unfold BlaBla.operator_call_traced
  by_cases h : s.ctr / 16 = s.block_idx <;> simp [h]

/-- C13: for every state and every `n`, `discard(n)` sets `ctr` to `(ctr + n) mod 2^64`,
leaves all eight `keysetup` words, the sixteen cached words and the cached block index
as they were, and makes no `generate_block` call. -/
theorem discard_frame (s : BlaBla) (n : Nat) :
    (s.discard n).ctr = (s.ctr + n) % 2 ^ 64 ∧
      (∀ i, rd (s.discard n).keysetup i = rd s.keysetup i) ∧
      (∀ i, rd (s.discard n).block i = rd s.block i) ∧
      (s.discard n).block_idx = s.block_idx ∧
      (s.discard_traced n).1 = s.discard n ∧
      (s.discard_traced n).2 = 0 :=
  ⟨rfl, fun _ => rfl, fun _ => rfl, rfl, rfl, rfl⟩

/-- C14 on the code: after `seed(1, 2)` and `discard(2^64 - 1)` the counter is `2^64 - 1`;
the next draw wraps it to 0, below its value before.  Likewise `discard(2^64 - 1)` from
`ctr = 5` leaves `ctr = 4`. -/
theorem ctr_wraps_to_zero :
    Reachable 10 ((zero_state.seed 1 2).discard (2 ^ 64 - 1)) ∧
      ((zero_state.seed 1 2).discard (2 ^ 64 - 1)).ctr = 2 ^ 64 - 1 ∧
      (((zero_state.seed 1 2).discard (2 ^ 64 - 1)).operator_call 10).2.ctr = 0 ∧
      (((zero_state.seed 1 2).discard 5).discard (2 ^ 64 - 1)).ctr = 4 := by
  refine ⟨Reachable.discard _ (Reachable.seed zero_state 1 2 (by decide) (by decide)), ?_, ?_,
    ?_⟩
  · decide
  · rw [operator_call_ctr]
    decide
  · decide

/-- C14 as amended: a draw sets `ctr` to `(ctr + 1) mod 2^64` and `discard(n)` sets it to
`(ctr + n) mod 2^64`.  While `ctr + 1 < 2^64` the draw leaves `ctr` exactly one larger,
and while `ctr + n < 2^64` the value after `discard(n)` is `ctr + n`, not below the value
before. -/
theorem ctr_advances_without_wrap (R : Nat) (s : BlaBla) (n : Nat) :
    (s.operator_call R).2.ctr = (s.ctr + 1) % 2 ^ 64 ∧
      (s.discard n).ctr = (s.ctr + n) % 2 ^ 64 ∧
      (s.ctr + 1 < 2 ^ 64 →
        (s.operator_call R).2.ctr = s.ctr + 1 ∧ s.ctr ≤ (s.operator_call R).2.ctr) ∧
      (s.ctr + n < 2 ^ 64 → (s.discard n).ctr = s.ctr + n ∧ s.ctr ≤ (s.discard n).ctr) := by
  refine ⟨operator_call_ctr R s, rfl, ?_, ?_⟩
  · intro h
    have h1 : (s.operator_call R).2.ctr = s.ctr + 1 := by
      rw [operator_call_ctr]
      exact Nat.mod_eq_of_lt h
    exact ⟨h1, by omega⟩
  · intro h
    have h1 : (s.discard n).ctr = s.ctr + n := Nat.mod_eq_of_lt h
    exact ⟨h1, by omega⟩

/-- Witness for the amended C14: the generator seeded with (1, 2), drawing once and
skipping 1000 words. -/
theorem ctr_advances_without_wrap_witness :
    (zero_state.seed 1 2).ctr + 1 < 2 ^ 64 ∧ (zero_state.seed 1 2).ctr + 1000 < 2 ^ 64 ∧
      ((zero_state.seed 1 2).operator_call 10).2.ctr = (zero_state.seed 1 2).ctr + 1 ∧
      ((zero_state.seed 1 2).discard 1000).ctr = (zero_state.seed 1 2).ctr + 1000 :=
  ⟨by decide, by decide,
    ((ctr_advances_without_wrap 10 (zero_state.seed 1 2) 1000).2.2.1 (by decide)).1,
    ((ctr_advances_without_wrap 10 (zero_state.seed 1 2) 1000).2.2.2 (by decide)).1⟩

/-! ## Seeding from a seed sequence -/

theorem seed_seq_key (s0 : BlaBla) (seeds : Words 8) (i : Nat) (hi : i < 4) :
    rd (s0.seed_seq seeds).keysetup i
      = ((rd seeds (2 * i) <<< 32) % W64) ||| rd seeds (2 * i + 1) := by
  have hk : (s0.seed_seq seeds).keysetup
      = for_loop 4 (fun i keysetup =>
          wr keysetup i (((rd seeds (2 * i) <<< 32) % W64) ||| rd seeds (2 * i + 1)))
          s0.keysetup := rfl
  rw [hk]
  simp only [for_loop]
  have h4 : i = 0 ∨ i = 1 ∨ i = 2 ∨ i = 3 := by omega
  rcases h4 with h | h | h | h <;> subst h
  · rw [rd_wr_ne _ _ (by decide), rd_wr_ne _ _ (by decide), rd_wr_ne _ _ (by decide),
      rd_wr_same _ _ (by decide)]
  · rw [rd_wr_ne _ _ (by decide), rd_wr_ne _ _ (by decide), rd_wr_same _ _ (by decide)]
  · rw [rd_wr_ne _ _ (by decide), rd_wr_same _ _ (by decide)]
  · rw [rd_wr_same _ _ (by decide)]

theorem pack_eq (hi lo : Nat) (hhi : hi < 2 ^ 32) (hlo : lo < 2 ^ 32) :
    ((hi <<< 32) % W64) ||| lo = hi * 2 ^ 32 + lo := by
  have h1 : hi <<< 32 = 2 ^ 32 * hi := by rw [Nat.shiftLeft_eq, Nat.mul_comm]
  have h2 : 2 ^ 32 * hi < W64 := by
    have : W64 = 2 ^ 32 * 2 ^ 32 := by decide
    rw [this]
    exact Nat.mul_lt_mul_of_pos_left hhi (by decide)
  rw [h1, Nat.mod_eq_of_lt h2, ← Nat.mul_add_lt_is_or hlo hi, Nat.mul_comm]

theorem pack_div (hi lo : Nat) (hlo : lo < 2 ^ 32) : (hi * 2 ^ 32 + lo) / 2 ^ 32 = hi := by
  omega

theorem pack_mod (hi lo : Nat) (hlo : lo < 2 ^ 32) : (hi * 2 ^ 32 + lo) % 2 ^ 32 = lo := by
  omega

/-- C11: for eight 32-bit values `seeds` handed over by the collaborator, `seed(seq)` makes
key word `i` equal to `seeds[2i] * 2^32 + seeds[2i+1]` for `i` in 0..3 whatever the key
words were before, sets `ctr` to 0 and the cached block index to `2^64 - 1`; two
sequences of 32-bit values that give the same four key words are equal, and every four
64-bit key words come from some sequence of 32-bit values. -/
theorem seed_seq_packs_pairwise (s0 : BlaBla) (seeds : Words 8)
    (h : ∀ j, j < 8 → rd seeds j < 2 ^ 32) :
    (∀ i, i < 4 →
        rd (s0.seed_seq seeds).keysetup i = rd seeds (2 * i) * 2 ^ 32 + rd seeds (2 * i + 1)) ∧
      (s0.seed_seq seeds).ctr = 0 ∧
      (s0.seed_seq seeds).block_idx = 2 ^ 64 - 1 ∧
      (∀ (t0 : BlaBla) (seeds2 : Words 8), (∀ j, j < 8 → rd seeds2 j < 2 ^ 32) →
        (∀ i, i < 4 →
          rd (s0.seed_seq seeds).keysetup i = rd (t0.seed_seq seeds2).keysetup i) →
        seeds = seeds2) ∧
      (∀ k : Words 4, (∀ i, i < 4 → rd k i < 2 ^ 64) →
        ∃ seeds3 : Words 8, (∀ j, j < 8 → rd seeds3 j < 2 ^ 32) ∧
          ∀ i, i < 4 → rd (s0.seed_seq seeds3).keysetup i = rd k i) := by
  have key : ∀ (u : BlaBla) (sd : Words 8), (∀ j, j < 8 → rd sd j < 2 ^ 32) → ∀ i, i < 4 →
      rd (u.seed_seq sd).keysetup i = rd sd (2 * i) * 2 ^ 32 + rd sd (2 * i + 1) := by
    intro u sd hsd i hi
    rw [seed_seq_key u sd i hi]
    exact pack_eq _ _ (hsd _ (by omega)) (hsd _ (by omega))
  refine ⟨key s0 seeds h, rfl, rfl, ?_, ?_⟩
  · intro t0 seeds2 h2 heq
    apply Words.ext_rd
    intro j hj
    have hi : j / 2 < 4 := by omega
    have e := heq (j / 2) hi
    rw [key s0 seeds h _ hi, key t0 seeds2 h2 _ hi] at e
    have e1 := congrArg (fun x => x / 2 ^ 32) e
    have e2 := congrArg (fun x => x % 2 ^ 32) e
    simp only at e1 e2
    rw [pack_div _ _ (h _ (by omega)), pack_div _ _ (h2 _ (by omega))] at e1
    rw [pack_mod _ _ (h _ (by omega)), pack_mod _ _ (h2 _ (by omega))] at e2
    rcases Nat.mod_two_eq_zero_or_one j with hp | hp
    · have : 2 * (j / 2) = j := by omega
      rw [this] at e1
      exact e1
    · have : 2 * (j / 2) + 1 = j := by omega
      rw [this] at e2
      exact e2
  · intro k hk
    have h0 := hk 0 (by decide)
    have h1 := hk 1 (by decide)
    have h2 := hk 2 (by decide)
    have h3 := hk 3 (by decide)
    obtain ⟨sd, hsd⟩ : ∃ sd : Words 8, sd = ⟨[rd k 0 / 2 ^ 32, rd k 0 % 2 ^ 32,
        rd k 1 / 2 ^ 32, rd k 1 % 2 ^ 32, rd k 2 / 2 ^ 32, rd k 2 % 2 ^ 32, rd k 3 / 2 ^ 32,
        rd k 3 % 2 ^ 32], rfl⟩ := ⟨_, rfl⟩
    have e0 : rd sd 0 = rd k 0 / 2 ^ 32 := by rw [hsd]; rfl
    have e1 : rd sd 1 = rd k 0 % 2 ^ 32 := by rw [hsd]; rfl
    have e2 : rd sd 2 = rd k 1 / 2 ^ 32 := by rw [hsd]; rfl
    have e3 : rd sd 3 = rd k 1 % 2 ^ 32 := by rw [hsd]; rfl
    have e4 : rd sd 4 = rd k 2 / 2 ^ 32 := by rw [hsd]; rfl
    have e5 : rd sd 5 = rd k 2 % 2 ^ 32 := by rw [hsd]; rfl
    have e6 : rd sd 6 = rd k 3 / 2 ^ 32 := by rw [hsd]; rfl
    have e7 : rd sd 7 = rd k 3 % 2 ^ 32 := by rw [hsd]; rfl
    have hb : ∀ j, j < 8 → rd sd j < 2 ^ 32 := by
      intro j hj
      have h8 : j = 0 ∨ j = 1 ∨ j = 2 ∨ j = 3 ∨ j = 4 ∨ j = 5 ∨ j = 6 ∨ j = 7 := by omega
      rcases h8 with e | e | e | e | e | e | e | e <;> subst e
      · rw [e0]; omega
      · rw [e1]; omega
      · rw [e2]; omega
      · rw [e3]; omega
      · rw [e4]; omega
      · rw [e5]; omega
      · rw [e6]; omega
      · rw [e7]; omega
    refine ⟨sd, hb, ?_⟩
    intro i hi
    rw [key s0 sd hb i hi]
    have h4 : i = 0 ∨ i = 1 ∨ i = 2 ∨ i = 3 := by omega
    rcases h4 with e | e | e | e <;> subst e
    · rw [show 2 * 0 = 0 from rfl, show 0 + 1 = 1 from rfl, e0, e1]; omega
    · rw [show 2 * 1 = 2 from rfl, show 2 + 1 = 3 from rfl, e2, e3]; omega
    · rw [show 2 * 2 = 4 from rfl, show 4 + 1 = 5 from rfl, e4, e5]; omega
    · rw [show 2 * 3 = 6 from rfl, show 6 + 1 = 7 from rfl, e6, e7]; omega

/-- Witness for C11: the eight values 1..8. -/
theorem seed_seq_packs_pairwise_witness :
    (∀ j, j < 8 → rd (n := 8) ⟨[1, 2, 3, 4, 5, 6, 7, 8], rfl⟩ j < 2 ^ 32) ∧
      (zero_state.seed_seq ⟨[1, 2, 3, 4, 5, 6, 7, 8], rfl⟩).keysetup.data
        = [1 * 2 ^ 32 + 2, 3 * 2 ^ 32 + 4, 5 * 2 ^ 32 + 6, 7 * 2 ^ 32 + 8, 0, 0, 0, 0] ∧
      (∀ i, i < 4 →
        rd (zero_state.seed_seq ⟨[1, 2, 3, 4, 5, 6, 7, 8], rfl⟩).keysetup i
          = rd (n := 8) ⟨[1, 2, 3, 4, 5, 6, 7, 8], rfl⟩ (2 * i) * 2 ^ 32
            + rd (n := 8) ⟨[1, 2, 3, 4, 5, 6, 7, 8], rfl⟩ (2 * i + 1)) :=
  ⟨by decide, by decide,
    (seed_seq_packs_pairwise zero_state ⟨[1, 2, 3, 4, 5, 6, 7, 8], rfl⟩ (by decide)).1⟩

/-! ## `rotate_right` is a rotation of 64-bit words -/

theorem rotate_right_lt (x n : Nat) (hx : x < 2 ^ 64) : rotate_right x n < 2 ^ 64 := by
  unfold rotate_right
  apply Nat.or_lt_two_pow
  · rw [Nat.shiftRight_eq_div_pow]
    exact Nat.lt_of_le_of_lt (Nat.div_le_self _ _) hx
  · exact Nat.mod_lt _ (by decide)

theorem rotate_right_testBit (x n i : Nat) (hx : x < 2 ^ 64) (hn0 : 0 < n) (hn : n < 64)
    (hi : i < 64) : (rotate_right x n).testBit i = x.testBit ((i + n) % 64) := by
  unfold rotate_right
  have hW : W64 = 2 ^ 64 := rfl
  rw [Nat.testBit_or, Nat.testBit_shiftRight, hW, Nat.testBit_mod_two_pow,
    Nat.testBit_shiftLeft]
  by_cases h : i + n < 64
  · have h1 : (i + n) % 64 = n + i := by rw [Nat.mod_eq_of_lt h, Nat.add_comm]
    have h2 : ¬ i ≥ 64 - n := by omega
    simp [h1, h2]
  · have h1 : (i + n) % 64 = i - (64 - n) := by omega
    have h2 : i ≥ 64 - n := by omega
    have h3 : x.testBit (n + i) = false := by
      apply Nat.testBit_lt_two_pow
      exact Nat.lt_of_lt_of_le hx (Nat.pow_le_pow_right (by decide) (by omega))
    simp [h1, h2, h3, hi]

theorem testBit_false_of_lt_word (x i : Nat) (hx : x < 2 ^ 64) (hi : 64 ≤ i) :
    x.testBit i = false :=
  Nat.testBit_lt_two_pow (Nat.lt_of_lt_of_le hx (Nat.pow_le_pow_right (by decide) hi))

theorem rotate_right_inv (x n : Nat) (hx : x < 2 ^ 64) (hn0 : 0 < n) (hn : n < 64) :
    rotate_right (rotate_right x n) (64 - n) = x := by
  apply Nat.eq_of_testBit_eq
  intro i
  by_cases hi : i < 64
  · rw [rotate_right_testBit _ _ _ (rotate_right_lt x n hx) (by omega) (by omega) hi,
      rotate_right_testBit x n _ hx hn0 hn (Nat.mod_lt _ (by decide))]
    congr 1
    omega
  · rw [testBit_false_of_lt_word _ i (rotate_right_lt _ _ (rotate_right_lt x n hx)) (by omega),
      testBit_false_of_lt_word x i hx (by omega)]

/-- C18: for every 64-bit `x` and every amount `0 < n < 64` (the code uses 32, 24, 16 and
63), bit `i` of `rotate_right(x, n)` is bit `(i + n) mod 64` of `x`, the result is again a
64-bit word, both shift amounts `n` and `64 - n` lie strictly between 0 and 64, and
`rotate_right(., 64 - n)` undoes `rotate_right(., n)`. -/
theorem rotate_right_is_rotation (x n : Nat) (hx : x < 2 ^ 64) (hn0 : 0 < n) (hn : n < 64) :
    (∀ i, i < 64 → (rotate_right x n).testBit i = x.testBit ((i + n) % 64)) ∧
      rotate_right x n < 2 ^ 64 ∧
      (0 < 64 - n ∧ 64 - n < 64) ∧
      rotate_right (rotate_right x n) (64 - n) = x ∧
      (∀ m, m ∈ [32, 24, 16, 63] → 0 < m ∧ m < 64 ∧ 0 < 64 - m ∧ 64 - m < 64) := by
  refine ⟨fun i hi => rotate_right_testBit x n i hx hn0 hn hi, rotate_right_lt x n hx,
    ⟨by omega, by omega⟩, rotate_right_inv x n hx hn0 hn, ?_⟩
  intro m hm
  simp only [List.mem_cons, List.mem_singleton, List.not_mem_nil, or_false] at hm
  omega

/-- Witness for C18: rotating `0x0123456789abcdef` by 24 gives `0xabcdef0123456789`, and
rotating that by 40 gives the word back. -/
theorem rotate_right_is_rotation_witness :
    (0x0123456789abcdef : Nat) < 2 ^ 64 ∧ 0 < 24 ∧ 24 < 64 ∧
      rotate_right 0x0123456789abcdef 24 = 0xabcdef0123456789 ∧
      rotate_right (rotate_right 0x0123456789abcdef 24) (64 - 24) = 0x0123456789abcdef :=
  ⟨by decide, by decide, by decide, by decide,
    (rotate_right_is_rotation 0x0123456789abcdef 24 (by decide) (by decide) (by decide)).2.2.2.1⟩

/-! ## One quarter-round, read position by position -/

theorem mix_func_rd (a b c d : Nat) (blk : Words 16) (ha : a < 16) (hb : b < 16)
    (hc : c < 16) (hd : d < 16) (hab : a ≠ b) (hac : a ≠ c) (had : a ≠ d) (hbc : b ≠ c)
    (hbd : b ≠ d) (hcd : c ≠ d) (j : Nat) :
    rd (mix_func a b c d blk) j =
      if d = j then (spec_quarter_round (rd blk a, rd blk b, rd blk c, rd blk d)).2.2.2
      else if c = j then (spec_quarter_round (rd blk a, rd blk b, rd blk c, rd blk d)).2.2.1
      else if b = j then (spec_quarter_round (rd blk a, rd blk b, rd blk c, rd blk d)).2.1
      else if a = j then (spec_quarter_round (rd blk a, rd blk b, rd blk c, rd blk d)).1
      else rd blk j := by
  rw [mix_func_eq_writes a b c d blk ha hb hc hd hab hac had hbc hbd hcd]
  simp only [rd_wr, ha, hb, hc, hd, and_true]

theorem apply_mix_rd_other (q : Nat × Nat × Nat × Nat) (blk : Words 16)
    (hn : (quad_indices q).Nodup) (hlt : ∀ i ∈ quad_indices q, i < 16) (j : Nat)
    (hj : j ∉ quad_indices q) : rd (apply_mix q blk) j = rd blk j := by
  obtain ⟨a, b, c, d⟩ := q
  simp only [quad_indices, List.nodup_cons, List.mem_cons, List.mem_singleton, not_or,
    List.not_mem_nil, List.nodup_nil, and_true, not_false_eq_true, forall_eq_or_imp,
    forall_eq, or_false, IsEmpty.forall_iff, implies_true] at hn hlt hj
  obtain ⟨⟨hab, hac, had⟩, ⟨hbc, hbd⟩, hcd⟩ := hn
  obtain ⟨ha, hb, hc, hd⟩ := hlt
  obtain ⟨hja, hjb, hjc, hjd⟩ := hj
  unfold apply_mix
  rw [mix_func_rd a b c d blk ha hb hc hd hab hac had hbc hbd hcd j]
  simp only [Ne.symm hja, Ne.symm hjb, Ne.symm hjc, Ne.symm hjd, if_false]

theorem apply_mix_rd_congr (q : Nat × Nat × Nat × Nat) (blk1 blk2 : Words 16)
    (hn : (quad_indices q).Nodup) (hlt : ∀ i ∈ quad_indices q, i < 16)
    (h : ∀ i ∈ quad_indices q, rd blk1 i = rd blk2 i) (j : Nat) (hj : j ∈ quad_indices q) :
    rd (apply_mix q blk1) j = rd (apply_mix q blk2) j := by
  obtain ⟨a, b, c, d⟩ := q
  have hh := h
  simp only [quad_indices, List.nodup_cons, List.mem_cons, List.mem_singleton, not_or,
    List.not_mem_nil, List.nodup_nil, and_true, not_false_eq_true, forall_eq_or_imp,
    forall_eq, or_false, IsEmpty.forall_iff, implies_true] at hn hlt hh
  obtain ⟨⟨hab, hac, had⟩, ⟨hbc, hbd⟩, hcd⟩ := hn
  obtain ⟨ha, hb, hc, hd⟩ := hlt
  obtain ⟨e1, e2, e3, e4⟩ := hh
  unfold apply_mix
  rw [mix_func_rd a b c d blk1 ha hb hc hd hab hac had hbc hbd hcd j,
    mix_func_rd a b c d blk2 ha hb hc hd hab hac had hbc hbd hcd j, e1, e2, e3, e4]
  have hj2 : ∀ i ∈ quad_indices (a, b, c, d), i = j → rd blk1 j = rd blk2 j := by
    intro i hi hij
    rw [← hij]
    exact h i hi
  simp only [quad_indices, List.mem_cons, List.mem_singleton, List.not_mem_nil, or_false,
    forall_eq_or_imp, forall_eq] at hj hj2
  split_ifs <;> first | rfl | (exfalso; omega)

/-- Two quarter-rounds on disjoint, in-range, pairwise distinct positions commute. -/
theorem apply_mix_comm (q1 q2 : Nat × Nat × Nat × Nat) (blk : Words 16)
    (hn : (quad_indices q1 ++ quad_indices q2).Nodup)
    (hlt : ∀ i ∈ quad_indices q1 ++ quad_indices q2, i < 16) :
    apply_mix q1 (apply_mix q2 blk) = apply_mix q2 (apply_mix q1 blk) := by
  have hn1 : (quad_indices q1).Nodup := (List.nodup_append.mp hn).1
  have hn2 : (quad_indices q2).Nodup := (List.nodup_append.mp hn).2.1
  have hdis : ∀ i, i ∈ quad_indices q1 → i ∉ quad_indices q2 :=
    fun i h1 h2 => (List.nodup_append.mp hn).2.2 h1 h2
  have hlt1 : ∀ i ∈ quad_indices q1, i < 16 := fun i hi => hlt i (List.mem_append_left _ hi)
  have hlt2 : ∀ i ∈ quad_indices q2, i < 16 := fun i hi => hlt i (List.mem_append_right _ hi)
  apply Words.ext_rd
  intro j _
  by_cases h1 : j ∈ quad_indices q1
  · have h2 : j ∉ quad_indices q2 := hdis j h1
    rw [apply_mix_rd_other q2 _ hn2 hlt2 j h2]
    exact apply_mix_rd_congr q1 _ _ hn1 hlt1
      (fun i hi => apply_mix_rd_other q2 blk hn2 hlt2 i (hdis i hi)) j h1
  · rw [apply_mix_rd_other q1 _ hn1 hlt1 j h1]
    by_cases h2 : j ∈ quad_indices q2
    · exact (apply_mix_rd_congr q2 _ _ hn2 hlt2
        (fun i hi => apply_mix_rd_other q1 blk hn1 hlt1 i (fun hc => hdis i hc hi)) j h2).symm
    · rw [apply_mix_rd_other q2 _ hn2 hlt2 j h2, apply_mix_rd_other q2 _ hn2 hlt2 j h2,
        apply_mix_rd_other q1 _ hn1 hlt1 j h1]

theorem blabla_core_eq_calls (R : Nat) (blk : Words 16) :
    blabla_core R blk
      = for_loop R (fun _ b => blabla_core_calls.foldl (fun b q => apply_mix q b) b) blk :=
  rfl

theorem column_calls_compatible :
    ∀ q1 ∈ column_calls, ∀ q2 ∈ column_calls, q1 ≠ q2 →
      (quad_indices q1 ++ quad_indices q2).Nodup ∧
        ∀ i ∈ quad_indices q1 ++ quad_indices q2, i < 16 := by
  decide

theorem diagonal_calls_compatible :
    ∀ q1 ∈ diagonal_calls, ∀ q2 ∈ diagonal_calls, q1 ≠ q2 →
      (quad_indices q1 ++ quad_indices q2).Nodup ∧
        ∀ i ∈ quad_indices q1 ++ quad_indices q2, i < 16 := by
  decide

/-- C20: the loop body of `blabla_core` is the eight `mix_func` calls listed in
`blabla_core_calls`; every subscript passed lies below 16 and the four subscripts of each
call are pairwise distinct; every position 0..15 occurs in exactly one of the first four
calls and in exactly one of the last four; and any two different calls of the same half
touch disjoint positions and commute. -/
theorem schedule_well_formed :
    (∀ (R : Nat) (blk : Words 16), blabla_core R blk
        = for_loop R (fun _ b => blabla_core_calls.foldl (fun b q => apply_mix q b) b) blk) ∧
      (∀ q ∈ blabla_core_calls, (∀ i ∈ quad_indices q, i < 16) ∧ (quad_indices q).Nodup) ∧
      (∀ i, i < 16 →
        (column_calls.filter (fun q => decide (i ∈ quad_indices q))).length = 1) ∧
      (∀ i, i < 16 →
        (diagonal_calls.filter (fun q => decide (i ∈ quad_indices q))).length = 1) ∧
      (∀ q1 ∈ column_calls, ∀ q2 ∈ column_calls, q1 ≠ q2 →
        (∀ i ∈ quad_indices q1, i ∉ quad_indices q2) ∧
          ∀ blk : Words 16, apply_mix q1 (apply_mix q2 blk) = apply_mix q2 (apply_mix q1 blk)) ∧
      (∀ q1 ∈ diagonal_calls, ∀ q2 ∈ diagonal_calls, q1 ≠ q2 →
        (∀ i ∈ quad_indices q1, i ∉ quad_indices q2) ∧
          ∀ blk : Words 16,
            apply_mix q1 (apply_mix q2 blk) = apply_mix q2 (apply_mix q1 blk)) := by
  refine ⟨blabla_core_eq_calls, by decide, by decide, by decide, ?_, ?_⟩
  · intro q1 h1 q2 h2 hne
    obtain ⟨hn, hlt⟩ := column_calls_compatible q1 h1 q2 h2 hne
    exact ⟨fun i hi hi2 => (List.nodup_append.mp hn).2.2 hi hi2,
      fun blk => apply_mix_comm q1 q2 blk hn hlt⟩
  · intro q1 h1 q2 h2 hne
    obtain ⟨hn, hlt⟩ := diagonal_calls_compatible q1 h1 q2 h2 hne
    exact ⟨fun i hi hi2 => (List.nodup_append.mp hn).2.2 hi hi2,
      fun blk => apply_mix_comm q1 q2 blk hn hlt⟩

/-! ## The quarter-round is invertible -/

theorem rot_undo (x n m : Nat) (hx : x < 2 ^ 64) (hn0 : 0 < n) (hn : n < 64)
    (hm : m = 64 - n) : rotate_right (rotate_right x n) m = x := by
  rw [hm]
  exact rotate_right_inv x n hx hn0 hn

theorem add_undo (a b : Nat) (ha : a < 2 ^ 64) (hb : b < 2 ^ 64) :
    ((a + b) % 2 ^ 64 + 2 ^ 64 - b) % 2 ^ 64 = a := by
  omega

theorem sub_undo (a b : Nat) (ha : a < 2 ^ 64) (hb : b < 2 ^ 64) :
    ((a + 2 ^ 64 - b) % 2 ^ 64 + b) % 2 ^ 64 = a := by
  omega

theorem mod_word_lt (x : Nat) : x % 2 ^ 64 < 2 ^ 64 := Nat.mod_lt _ (by decide)

theorem quarter_round_inv_left (a b c d : Nat) (ha : a < 2 ^ 64) (hb : b < 2 ^ 64)
    (hc : c < 2 ^ 64) (hd : d < 2 ^ 64) :
    quarter_round_inv (spec_quarter_round (a, b, c, d)) = (a, b, c, d) := by
  simp only [spec_quarter_round, quarter_round_inv]
  have ha1 : (a + b) % 2 ^ 64 < 2 ^ 64 := mod_word_lt _
  generalize hA1 : (a + b) % 2 ^ 64 = a1 at ha1 ⊢
  have hx1 : d ^^^ a1 < 2 ^ 64 := Nat.xor_lt_two_pow hd ha1
  have hd1 : rotate_right (d ^^^ a1) 32 < 2 ^ 64 := rotate_right_lt _ _ hx1
  generalize hD1 : rotate_right (d ^^^ a1) 32 = d1 at hd1 ⊢
  have hc1 : (c + d1) % 2 ^ 64 < 2 ^ 64 := mod_word_lt _
  generalize hC1 : (c + d1) % 2 ^ 64 = c1 at hc1 ⊢
  have hx2 : b ^^^ c1 < 2 ^ 64 := Nat.xor_lt_two_pow hb hc1
  have hb1 : rotate_right (b ^^^ c1) 24 < 2 ^ 64 := rotate_right_lt _ _ hx2
  generalize hB1 : rotate_right (b ^^^ c1) 24 = b1 at hb1 ⊢
  have ha2 : (a1 + b1) % 2 ^ 64 < 2 ^ 64 := mod_word_lt _
  generalize hA2 : (a1 + b1) % 2 ^ 64 = a2 at ha2 ⊢
  have hx3 : d1 ^^^ a2 < 2 ^ 64 := Nat.xor_lt_two_pow hd1 ha2
  have hd2 : rotate_right (d1 ^^^ a2) 16 < 2 ^ 64 := rotate_right_lt _ _ hx3
  generalize hD2 : rotate_right (d1 ^^^ a2) 16 = d2 at hd2 ⊢
  have hc2 : (c1 + d2) % 2 ^ 64 < 2 ^ 64 := mod_word_lt _
  generalize hC2 : (c1 + d2) % 2 ^ 64 = c2 at hc2 ⊢
  have hx4 : b1 ^^^ c2 < 2 ^ 64 := Nat.xor_lt_two_pow hb1 hc2
  have e1 : rotate_right (rotate_right (b1 ^^^ c2) 63) 1 ^^^ c2 = b1 := by
    rw [rot_undo _ 63 1 hx4 (by decide) (by decide) rfl, Nat.xor_cancel_right]
  have e2 : (c2 + 2 ^ 64 - d2) % 2 ^ 64 = c1 := by
    rw [← hC2]
    exact add_undo c1 d2 hc1 hd2
  have e3 : rotate_right d2 48 ^^^ a2 = d1 := by
    rw [← hD2, rot_undo _ 16 48 hx3 (by decide) (by decide) rfl, Nat.xor_cancel_right]
  have e4 : (a2 + 2 ^ 64 - b1) % 2 ^ 64 = a1 := by
    rw [← hA2]
    exact add_undo a1 b1 ha1 hb1
  have e5 : rotate_right b1 40 ^^^ c1 = b := by
    rw [← hB1, rot_undo _ 24 40 hx2 (by decide) (by decide) rfl, Nat.xor_cancel_right]
  have e6 : (c1 + 2 ^ 64 - d1) % 2 ^ 64 = c := by
    rw [← hC1]
    exact add_undo c d1 hc hd1
  have e7 : rotate_right d1 32 ^^^ a1 = d := by
    rw [← hD1, rot_undo _ 32 32 hx1 (by decide) (by decide) rfl, Nat.xor_cancel_right]
  have e8 : (a1 + 2 ^ 64 - b) % 2 ^ 64 = a := by
    rw [← hA1]
    exact add_undo a b ha hb
  rw [e1, e2, e3, e4, e5, e6, e7, e8]

theorem quarter_round_inv_right (a b c d : Nat) (ha : a < 2 ^ 64) (hb : b < 2 ^ 64)
    (hc : c < 2 ^ 64) (hd : d < 2 ^ 64) :
    spec_quarter_round (quarter_round_inv (a, b, c, d)) = (a, b, c, d) := by
  simp only [spec_quarter_round, quarter_round_inv]
  have hr1 : rotate_right b 1 < 2 ^ 64 := rotate_right_lt _ _ hb
  have hb1 : rotate_right b 1 ^^^ c < 2 ^ 64 := Nat.xor_lt_two_pow hr1 hc
  have eB1 : rotate_right ((rotate_right b 1 ^^^ c) ^^^ c) 63 = b := by
    rw [Nat.xor_cancel_right]
    have := rot_undo b 1 63 hb (by decide) (by decide) rfl
    exact this
  generalize hB1 : rotate_right b 1 ^^^ c = b1 at hb1 eB1 ⊢
  have hc1 : (c + 2 ^ 64 - d) % 2 ^ 64 < 2 ^ 64 := mod_word_lt _
  have eC1 : ((c + 2 ^ 64 - d) % 2 ^ 64 + d) % 2 ^ 64 = c := sub_undo c d hc hd
  generalize hC1 : (c + 2 ^ 64 - d) % 2 ^ 64 = c1 at hc1 eC1 ⊢
  have hr2 : rotate_right d 48 < 2 ^ 64 := rotate_right_lt _ _ hd
  have hd1 : rotate_right d 48 ^^^ a < 2 ^ 64 := Nat.xor_lt_two_pow hr2 ha
  have eD1 : rotate_right ((rotate_right d 48 ^^^ a) ^^^ a) 16 = d := by
    rw [Nat.xor_cancel_right]
    exact rot_undo d 48 16 hd (by decide) (by decide) rfl
  generalize hD1 : rotate_right d 48 ^^^ a = d1 at hd1 eD1 ⊢
  have ha1 : (a + 2 ^ 64 - b1) % 2 ^ 64 < 2 ^ 64 := mod_word_lt _
  have eA1 : ((a + 2 ^ 64 - b1) % 2 ^ 64 + b1) % 2 ^ 64 = a := sub_undo a b1 ha hb1
  generalize hA1 : (a + 2 ^ 64 - b1) % 2 ^ 64 = a1 at ha1 eA1 ⊢
  have hr3 : rotate_right b1 40 < 2 ^ 64 := rotate_right_lt _ _ hb1
  have hb0 : rotate_right b1 40 ^^^ c1 < 2 ^ 64 := Nat.xor_lt_two_pow hr3 hc1
  have eB0 : rotate_right ((rotate_right b1 40 ^^^ c1) ^^^ c1) 24 = b1 := by
    rw [Nat.xor_cancel_right]
    exact rot_undo b1 40 24 hb1 (by decide) (by decide) rfl
  generalize hB0 : rotate_right b1 40 ^^^ c1 = b0 at hb0 eB0 ⊢
  have eC0 : ((c1 + 2 ^ 64 - d1) % 2 ^ 64 + d1) % 2 ^ 64 = c1 := sub_undo c1 d1 hc1 hd1
  generalize hC0 : (c1 + 2 ^ 64 - d1) % 2 ^ 64 = c0 at eC0 ⊢
  have eD0 : rotate_right ((rotate_right d1 32 ^^^ a1) ^^^ a1) 32 = d1 := by
    rw [Nat.xor_cancel_right]
    exact rot_undo d1 32 32 hd1 (by decide) (by decide) rfl
  generalize hD0 : rotate_right d1 32 ^^^ a1 = d0 at eD0 ⊢
  have eA0 : ((a1 + 2 ^ 64 - b0) % 2 ^ 64 + b0) % 2 ^ 64 = a1 := sub_undo a1 b0 ha1 hb0
  generalize hA0 : (a1 + 2 ^ 64 - b0) % 2 ^ 64 = a0 at eA0 ⊢
  rw [eA0, eD0, eC0, eB0, eA1, eD1, eC1, eB1]

/-- A function on four words that keeps them 64-bit words. -/
theorem spec_quarter_round_bound (a b c d : Nat) (hb : b < 2 ^ 64) (hd : d < 2 ^ 64) :
    (spec_quarter_round (a, b, c, d)).1 < 2 ^ 64 ∧
      (spec_quarter_round (a, b, c, d)).2.1 < 2 ^ 64 ∧
      (spec_quarter_round (a, b, c, d)).2.2.1 < 2 ^ 64 ∧
      (spec_quarter_round (a, b, c, d)).2.2.2 < 2 ^ 64 := by
  simp only [spec_quarter_round]
  have hd1 : rotate_right (d ^^^ (a + b) % 2 ^ 64) 32 < 2 ^ 64 :=
    rotate_right_lt _ _ (Nat.xor_lt_two_pow hd (mod_word_lt _))
  have hb1 : rotate_right (b ^^^ (c + rotate_right (d ^^^ (a + b) % 2 ^ 64) 32) % 2 ^ 64) 24
      < 2 ^ 64 := rotate_right_lt _ _ (Nat.xor_lt_two_pow hb (mod_word_lt _))
  exact ⟨mod_word_lt _, rotate_right_lt _ _ (Nat.xor_lt_two_pow hb1 (mod_word_lt _)),
    mod_word_lt _, rotate_right_lt _ _ (Nat.xor_lt_two_pow hd1 (mod_word_lt _))⟩

theorem quarter_round_inv_bound (a b c d : Nat) (ha : a < 2 ^ 64) (hb : b < 2 ^ 64)
    (hc : c < 2 ^ 64) (hd : d < 2 ^ 64) :
    (quarter_round_inv (a, b, c, d)).1 < 2 ^ 64 ∧
      (quarter_round_inv (a, b, c, d)).2.1 < 2 ^ 64 ∧
      (quarter_round_inv (a, b, c, d)).2.2.1 < 2 ^ 64 ∧
      (quarter_round_inv (a, b, c, d)).2.2.2 < 2 ^ 64 := by
  simp only [quarter_round_inv]
  have hb1 : rotate_right b 1 ^^^ c < 2 ^ 64 :=
    Nat.xor_lt_two_pow (rotate_right_lt _ _ hb) hc
  have hd1 : rotate_right d 48 ^^^ a < 2 ^ 64 :=
    Nat.xor_lt_two_pow (rotate_right_lt _ _ hd) ha
  exact ⟨mod_word_lt _,
    Nat.xor_lt_two_pow (rotate_right_lt _ _ hb1) (mod_word_lt _), mod_word_lt _,
    Nat.xor_lt_two_pow (rotate_right_lt _ _ hd1) (mod_word_lt _)⟩

theorem write_quad_rd (f : Nat × Nat × Nat × Nat → Nat × Nat × Nat × Nat) (a b c d : Nat)
    (blk : Words 16) (ha : a < 16) (hb : b < 16) (hc : c < 16) (hd : d < 16) (j : Nat) :
    rd (write_quad f a b c d blk) j =
      if d = j then (f (rd blk a, rd blk b, rd blk c, rd blk d)).2.2.2
      else if c = j then (f (rd blk a, rd blk b, rd blk c, rd blk d)).2.2.1
      else if b = j then (f (rd blk a, rd blk b, rd blk c, rd blk d)).2.1
      else if a = j then (f (rd blk a, rd blk b, rd blk c, rd blk d)).1
      else rd blk j := by
  simp only [write_quad, rd_wr, ha, hb, hc, hd, and_true]

theorem mix_func_eq_write_quad (a b c d : Nat) (blk : Words 16) (ha : a < 16) (hb : b < 16)
    (hc : c < 16) (hd : d < 16) (hab : a ≠ b) (hac : a ≠ c) (had : a ≠ d) (hbc : b ≠ c)
    (hbd : b ≠ d) (hcd : c ≠ d) :
    mix_func a b c d blk = write_quad spec_quarter_round a b c d blk :=
  mix_func_eq_writes a b c d blk ha hb hc hd hab hac had hbc hbd hcd

theorem write_quad_undo (f g : Nat × Nat × Nat × Nat → Nat × Nat × Nat × Nat)
    (a b c d : Nat) (blk : Words 16) (ha : a < 16) (hb : b < 16) (hc : c < 16) (hd : d < 16)
    (hab : a ≠ b) (hac : a ≠ c) (had : a ≠ d) (hbc : b ≠ c) (hbd : b ≠ d) (hcd : c ≠ d)
    (h : g (f (rd blk a, rd blk b, rd blk c, rd blk d))
      = (rd blk a, rd blk b, rd blk c, rd blk d)) :
    write_quad g a b c d (write_quad f a b c d blk) = blk := by
  have ra : rd (write_quad f a b c d blk) a = (f (rd blk a, rd blk b, rd blk c, rd blk d)).1 := by
    rw [write_quad_rd f a b c d blk ha hb hc hd a]
    simp only [Ne.symm had, Ne.symm hac, Ne.symm hab, if_false, if_true]
  have rb : rd (write_quad f a b c d blk) b
      = (f (rd blk a, rd blk b, rd blk c, rd blk d)).2.1 := by
    rw [write_quad_rd f a b c d blk ha hb hc hd b]
    simp only [Ne.symm hbd, Ne.symm hbc, if_false, if_true]
  have rc : rd (write_quad f a b c d blk) c
      = (f (rd blk a, rd blk b, rd blk c, rd blk d)).2.2.1 := by
    rw [write_quad_rd f a b c d blk ha hb hc hd c]
    simp only [Ne.symm hcd, if_false, if_true]
  have rdd : rd (write_quad f a b c d blk) d
      = (f (rd blk a, rd blk b, rd blk c, rd blk d)).2.2.2 := by
    rw [write_quad_rd f a b c d blk ha hb hc hd d]
    simp only [if_true]
  apply Words.ext_rd
  intro j _
  rw [write_quad_rd g a b c d _ ha hb hc hd j, ra, rb, rc, rdd, h,
    write_quad_rd f a b c d blk ha hb hc hd j]
  by_cases h1 : d = j
  · subst h1
    simp only [if_true]
  · by_cases h2 : c = j
    · subst h2
      simp only [h1, if_false, if_true]
    · by_cases h3 : b = j
      · subst h3
        simp only [h1, h2, if_false, if_true]
      · by_cases h4 : a = j
        · subst h4
          simp only [h1, h2, h3, if_false, if_true]
        · simp only [h1, h2, h3, h4, if_false]

theorem write_quad_maps (f : Nat × Nat × Nat × Nat → Nat × Nat × Nat × Nat) (a b c d : Nat)
    (blk : Words 16) (ha : a < 16) (hb : b < 16) (hc : c < 16) (hd : d < 16)
    (hblk : blk ∈ word_blocks)
    (hf : (f (rd blk a, rd blk b, rd blk c, rd blk d)).1 < 2 ^ 64 ∧
      (f (rd blk a, rd blk b, rd blk c, rd blk d)).2.1 < 2 ^ 64 ∧
      (f (rd blk a, rd blk b, rd blk c, rd blk d)).2.2.1 < 2 ^ 64 ∧
      (f (rd blk a, rd blk b, rd blk c, rd blk d)).2.2.2 < 2 ^ 64) :
    write_quad f a b c d blk ∈ word_blocks := by
  intro j hj
  rw [write_quad_rd f a b c d blk ha hb hc hd j]
  split_ifs
  · exact hf.2.2.2
  · exact hf.2.2.1
  · exact hf.2.1
  · exact hf.1
  · exact hblk j hj

theorem mix_func_bijOn (a b c d : Nat) (ha : a < 16) (hb : b < 16) (hc : c < 16)
    (hd : d < 16) (hab : a ≠ b) (hac : a ≠ c) (had : a ≠ d) (hbc : b ≠ c) (hbd : b ≠ d)
    (hcd : c ≠ d) : Set.BijOn (mix_func a b c d) word_blocks word_blocks := by
  have hmaps : Set.MapsTo (mix_func a b c d) word_blocks word_blocks := by
    intro blk hblk
    rw [mix_func_eq_write_quad a b c d blk ha hb hc hd hab hac had hbc hbd hcd]
    exact write_quad_maps _ a b c d blk ha hb hc hd hblk
      (spec_quarter_round_bound _ _ _ _ (hblk b hb) (hblk d hd))
  have hmaps' : Set.MapsTo (mix_func_inv a b c d) word_blocks word_blocks := by
    intro blk hblk
    exact write_quad_maps _ a b c d blk ha hb hc hd hblk
      (quarter_round_inv_bound _ _ _ _ (hblk a ha) (hblk b hb) (hblk c hc) (hblk d hd))
  have hinv : Set.InvOn (mix_func_inv a b c d) (mix_func a b c d) word_blocks word_blocks := by
    constructor
    · intro blk hblk
      show mix_func_inv a b c d (mix_func a b c d blk) = blk
      rw [mix_func_eq_write_quad a b c d blk ha hb hc hd hab hac had hbc hbd hcd]
      exact write_quad_undo spec_quarter_round quarter_round_inv a b c d blk ha hb hc hd hab
        hac had hbc hbd hcd
        (quarter_round_inv_left _ _ _ _ (hblk a ha) (hblk b hb) (hblk c hc) (hblk d hd))
    · intro blk hblk
      show mix_func a b c d (mix_func_inv a b c d blk) = blk
      rw [mix_func_eq_write_quad a b c d _ ha hb hc hd hab hac had hbc hbd hcd]
      exact write_quad_undo quarter_round_inv spec_quarter_round a b c d blk ha hb hc hd hab
        hac had hbc hbd hcd
        (quarter_round_inv_right _ _ _ _ (hblk a ha) (hblk b hb) (hblk c hc) (hblk d hd))
  exact hinv.bijOn hmaps hmaps'

theorem apply_mix_bijOn (q : Nat × Nat × Nat × Nat) (hn : (quad_indices q).Nodup)
    (hlt : ∀ i ∈ quad_indices q, i < 16) : Set.BijOn (apply_mix q) word_blocks word_blocks := by
  obtain ⟨a, b, c, d⟩ := q
  simp only [quad_indices, List.nodup_cons, List.mem_cons, List.mem_singleton, not_or,
    List.not_mem_nil, List.nodup_nil, and_true, not_false_eq_true, forall_eq_or_imp,
    forall_eq, or_false, IsEmpty.forall_iff, implies_true] at hn hlt
  obtain ⟨⟨hab, hac, had⟩, ⟨hbc, hbd⟩, hcd⟩ := hn
  obtain ⟨ha, hb, hc, hd⟩ := hlt
  exact mix_func_bijOn a b c d ha hb hc hd hab hac had hbc hbd hcd

theorem foldl_apply_mix_bijOn (l : List (Nat × Nat × Nat × Nat))
    (h : ∀ q ∈ l, (∀ i ∈ quad_indices q, i < 16) ∧ (quad_indices q).Nodup) :
    Set.BijOn (fun b => l.foldl (fun b q => apply_mix q b) b) word_blocks word_blocks := by
  induction l with
  | nil => exact Set.bijOn_id _
  | cons q l ih =>
    have h1 := h q (List.mem_cons_self _ _)
    have h2 := ih (fun q' hq' => h q' (List.mem_cons_of_mem _ hq'))
    exact Set.BijOn.comp h2 (apply_mix_bijOn q h1.2 h1.1)

theorem blabla_core_bijOn (R : Nat) : Set.BijOn (blabla_core R) word_blocks word_blocks := by
  have hround := foldl_apply_mix_bijOn blabla_core_calls (by decide)
  induction R with
  | zero =>
    have e : blabla_core 0 = id := by
      funext blk
      rfl
    rw [e]
    exact Set.bijOn_id _
  | succ R ih =>
    have e : blabla_core (R + 1)
        = (fun b => blabla_core_calls.foldl (fun b q => apply_mix q b) b) ∘ blabla_core R := by
      funext blk
      rw [Function.comp_apply, blabla_core_eq_calls (R + 1) blk, for_loop_succ,
        ← blabla_core_eq_calls R blk]
    rw [e]
    exact Set.BijOn.comp hround ih

/-- C17: for pairwise distinct positions `a, b, c, d` below 16, `mix_func(a, b, c, d)` maps
the blocks of sixteen 64-bit words one-to-one onto themselves; hence so does
`blabla_core` for every round count `R`, and two different blocks of 64-bit words never
have the same image under `blabla_core`. -/
theorem mix_func_bijective (a b c d : Nat) (ha : a < 16) (hb : b < 16) (hc : c < 16)
    (hd : d < 16) (hab : a ≠ b) (hac : a ≠ c) (had : a ≠ d) (hbc : b ≠ c) (hbd : b ≠ d)
    (hcd : c ≠ d) :
    Set.BijOn (mix_func a b c d) word_blocks word_blocks ∧
      (∀ R, Set.BijOn (blabla_core R) word_blocks word_blocks) ∧
      (∀ R, ∀ x ∈ word_blocks, ∀ y ∈ word_blocks, x ≠ y → blabla_core R x ≠ blabla_core R y) :=
  ⟨mix_func_bijOn a b c d ha hb hc hd hab hac had hbc hbd hcd, blabla_core_bijOn,
    fun R _ hx _ hy hne heq => hne ((blabla_core_bijOn R).injOn hx hy heq)⟩

/-- Witness for C17: the first call of the loop body, `mix_func(0, 4, 8, 12)`. -/
theorem mix_func_bijective_witness :
    ((0 : Nat) < 16 ∧ 4 < 16 ∧ 8 < 16 ∧ 12 < 16) ∧
      ((0 : Nat) ≠ 4 ∧ (0 : Nat) ≠ 8 ∧ (0 : Nat) ≠ 12 ∧ (4 : Nat) ≠ 8 ∧ (4 : Nat) ≠ 12 ∧
        (8 : Nat) ≠ 12) ∧
      Set.BijOn (mix_func 0 4 8 12) word_blocks word_blocks :=
  ⟨by decide, by decide,
    (mix_func_bijective 0 4 8 12 (by decide) (by decide) (by decide) (by decide) (by decide)
      (by decide) (by decide) (by decide) (by decide) (by decide)).1⟩

/-! ## The sentinel `uint64_t(-1)` -/

theorem generate_input_word13 (k : Words 8) (b : Nat) :
    rd (generate_input k b) 13 = (b + 1) % W64 := by
  simp only [generate_input]
  rw [rd_wr_ne _ _ (by decide), rd_wr_ne _ _ (by decide), rd_wr_same _ _ (by decide)]

theorem div16_le (c : Nat) (h : c < 2 ^ 64) : c / 16 ≤ 2 ^ 60 - 1 := by
  omega

theorem draw_regenerates_of_no_block (R : Nat) (s : BlaBla) (hc : s.ctr < 2 ^ 64)
    (hb : s.block_idx = NO_BLOCK) :
    (s.operator_call_traced R).2 = 1 ∧
      (s.operator_call R).2.block = (generate_block R { s with block_idx := s.ctr / 16 }).block := by
  have hne : s.ctr / 16 ≠ s.block_idx := by
    rw [hb]
    exact div16_ne_NO_BLOCK hc
  refine ⟨?_, operator_call_block_regen R s hne⟩
  rw [operator_call_traced_calls, if_neg hne]

/-- For every 64-bit `ctr`, `ctr div 16` is at most `2^60 - 1` and so differs from the
sentinel `2^64 - 1`; hence a draw from any state whose cached block index is the sentinel
calls `generate_block` (exactly once), in particular the first draw after `seed`, after
`seed(seq)` and after any `operator>>` that returns; and the word `block_idx + 1` that
this call puts into `input[13]` is not wrapped: it is `ctr div 16 + 1`, between 1 and
`2^60`. -/
theorem sentinel_regenerates_without_throw :
    (∀ c, c < 2 ^ 64 → c / 16 ≤ 2 ^ 60 - 1 ∧ c / 16 ≠ 2 ^ 64 - 1) ∧
      (∀ (R : Nat) (s : BlaBla), s.ctr < 2 ^ 64 → s.block_idx = 2 ^ 64 - 1 →
        (s.operator_call_traced R).2 = 1 ∧
          (s.operator_call R).2.block
            = (generate_block R { s with block_idx := s.ctr / 16 }).block) ∧
      (∀ (R : Nat) (s0 : BlaBla) (seedval stream : Nat),
        ((s0.seed seedval stream).operator_call_traced R).2 = 1) ∧
      (∀ (R : Nat) (s0 : BlaBla) (seeds : Words 8),
        ((s0.seed_seq seeds).operator_call_traced R).2 = 1) ∧
      (∀ (R : Nat) (is : IStream) (s : BlaBla), s.ctr < 2 ^ 64 →
        operator_in_throws is s = false →
        ((operator_in is s).2.operator_call_traced R).2 = 1) ∧
      (∀ s : BlaBla, s.ctr < 2 ^ 64 →
        rd (generate_input s.keysetup (s.ctr / 16)) 13 = s.ctr / 16 + 1 ∧
          1 ≤ rd (generate_input s.keysetup (s.ctr / 16)) 13 ∧
          rd (generate_input s.keysetup (s.ctr / 16)) 13 ≤ 2 ^ 60) := by
  refine ⟨fun c hc => ⟨div16_le c hc, div16_ne_NO_BLOCK hc⟩,
    fun R s hc hb => draw_regenerates_of_no_block R s hc hb,
    fun R s0 v st => (draw_regenerates_of_no_block R _ (Inv_seed R s0 v st).1 rfl).1,
    fun R s0 seeds => (draw_regenerates_of_no_block R _ (Inv_seed_seq R s0 seeds).1 rfl).1,
    ?_, ?_⟩
  · intro R is s hc hret
    exact (draw_regenerates_of_no_block R _ (operator_in_ctr_lt is s hc)
      (operator_in_block_idx is s hret)).1
  · intro s hc
    have hle := div16_le s.ctr hc
    have hw : rd (generate_input s.keysetup (s.ctr / 16)) 13 = s.ctr / 16 + 1 := by
      rw [generate_input_word13]
      apply Nat.mod_eq_of_lt
      have : W64 = 2 ^ 64 := rfl
      omega
    rw [hw]
    omega

/-! ## How often `generate_block` runs -/

theorem draws_calls_succ (R : Nat) (n : Nat) (s : BlaBla) :
    s.draws_calls R (n + 1)
      = (s.operator_call_traced R).2 + (s.operator_call R).2.draws_calls R n := rfl

/-- Draws that stay inside the cached block make no `generate_block` call. -/
theorem draws_calls_cached (R : Nat) (k : Nat) (t : BlaBla) (hc : t.ctr < 2 ^ 64)
    (hb : t.block_idx = t.ctr / 16) (hk : t.ctr % 16 + k ≤ 16) : t.draws_calls R k = 0 := by
  induction k generalizing t with
  | zero => rfl
  | succ k ih =>
    rw [draws_calls_succ, operator_call_traced_calls, if_pos hb.symm, Nat.zero_add]
    by_cases hk0 : k = 0
    · subst hk0
      rfl
    · have hW : W64 = 2 ^ 64 := rfl
      have hctr : (t.operator_call R).2.ctr = t.ctr + 1 := by
        rw [operator_call_ctr, hW]
        omega
      apply ih
      · rw [hctr]
        omega
      · rw [operator_call_block_idx, hctr]
        omega
      · rw [hctr]
        omega

theorem draws_calls_from_block_start (R : Nat) (s : BlaBla) (hc : s.ctr < 2 ^ 64)
    (hm : s.ctr % 16 = 0) :
    (s.operator_call R).2.draws_calls R 15 = 0 ∧
      s.draws_calls R 16 = if s.ctr / 16 = s.block_idx then 0 else 1 := by
  have hW : W64 = 2 ^ 64 := rfl
  have hctr : (s.operator_call R).2.ctr = s.ctr + 1 := by
    rw [operator_call_ctr, hW]
    omega
  have h15 : (s.operator_call R).2.draws_calls R 15 = 0 := by
    apply draws_calls_cached
    · rw [hctr]
      omega
    · rw [operator_call_block_idx, hctr]
      omega
    · rw [hctr]
      omega
  refine ⟨h15, ?_⟩
  rw [draws_calls_succ, h15, operator_call_traced_calls, Nat.add_zero]

/-- C15 on the code: after `seed(1, 2)`, one draw (which caches block 0) and
`discard(2^64 - 1)`, the counter is back at 0, a multiple of 16, with block 0 still cached;
the next 16 draws make no `generate_block` call at all, not one. -/
theorem no_regeneration_after_wrapping_discard :
    Reachable 10 (((zero_state.seed 1 2).operator_call 10).2.discard (2 ^ 64 - 1)) ∧
      (((zero_state.seed 1 2).operator_call 10).2.discard (2 ^ 64 - 1)).ctr % 16 = 0 ∧
      (((zero_state.seed 1 2).operator_call 10).2.discard (2 ^ 64 - 1)).draws_calls 10 16
        = 0 := by
  have hctr : (((zero_state.seed 1 2).operator_call 10).2.discard (2 ^ 64 - 1)).ctr = 0 := by
    show ((((zero_state.seed 1 2).operator_call 10).2.ctr) + (2 ^ 64 - 1)) % W64 = 0
    rw [operator_call_ctr]
    decide
  have hidx : (((zero_state.seed 1 2).operator_call 10).2.discard (2 ^ 64 - 1)).block_idx
      = 0 := by
    show ((zero_state.seed 1 2).operator_call 10).2.block_idx = 0
    rw [operator_call_block_idx]
    decide
  refine ⟨Reachable.discard _ (Reachable.operator_call
    (Reachable.seed zero_state 1 2 (by decide) (by decide))), ?_, ?_⟩
  · rw [hctr]
  · exact draws_calls_cached 10 16 _ (by rw [hctr]; decide) (by rw [hctr, hidx])
      (by rw [hctr])

/-- C15 as amended: from a reachable state whose `ctr` is a multiple of 16, the 2nd to 16th
of the next 16 draws never call `generate_block`, and the first calls it exactly once if
the cached block index differs from `ctr div 16` and not at all if it equals it; so the
16 draws make at most one call, and exactly one when no block is cached.  `discard(n)`
makes no call, and the draw after it makes exactly one call if the cached block index
differs from `((ctr + n) mod 2^64) div 16` and none otherwise. -/
theorem generate_block_calls_per_block (R : Nat) (s : BlaBla) (h : Reachable R s)
    (hm : s.ctr % 16 = 0) (n : Nat) :
    (s.operator_call_traced R).2 = (if s.ctr / 16 = s.block_idx then 0 else 1) ∧
      (s.operator_call R).2.draws_calls R 15 = 0 ∧
      s.draws_calls R 16 = (if s.ctr / 16 = s.block_idx then 0 else 1) ∧
      s.draws_calls R 16 ≤ 1 ∧
      (s.block_idx = 2 ^ 64 - 1 → s.draws_calls R 16 = 1) ∧
      (s.discard_traced n).2 = 0 ∧
      ((s.discard n).operator_call_traced R).2
        = (if (s.ctr + n) % 2 ^ 64 / 16 = s.block_idx then 0 else 1) := by
  have hc : s.ctr < 2 ^ 64 := h.ctr_lt
  obtain ⟨h15, h16⟩ := draws_calls_from_block_start R s hc hm
  refine ⟨operator_call_traced_calls R s, h15, h16, ?_, ?_, rfl, ?_⟩
  · rw [h16]
    split_ifs <;> omega
  · intro hb
    rw [h16, if_neg]
    rw [hb]
    exact div16_ne_NO_BLOCK hc
  · rw [operator_call_traced_calls]
    rfl

/-- Witness for the amended C15: a freshly seeded generator, `ctr = 0`, no block cached. -/
theorem generate_block_calls_per_block_witness :
    Reachable 10 (zero_state.seed 1 2) ∧ (zero_state.seed 1 2).ctr % 16 = 0 ∧
      (zero_state.seed 1 2).draws_calls 10 16 = 1 ∧
      (((zero_state.seed 1 2).discard 100).operator_call_traced 10).2 = 1 :=
  ⟨Reachable.seed zero_state 1 2 (by decide) (by decide), by decide,
    (generate_block_calls_per_block 10 (zero_state.seed 1 2)
      (Reachable.seed zero_state 1 2 (by decide) (by decide)) (by decide) 100).2.2.2.2.1 rfl,
    by
      have h := (generate_block_calls_per_block 10 (zero_state.seed 1 2)
        (Reachable.seed zero_state 1 2 (by decide) (by decide)) (by decide) 100).2.2.2.2.2.2
      rw [h]
      decide⟩

/-! ## The text `operator<<` writes -/

theorem extract_u64_flags (st : IStream) (v : Nat) : (extract_u64 st v).1.flags = st.flags := by
  unfold extract_u64
  simp only
  split_ifs <;> rfl

theorem stream_before_flags (is : IStream) (s : BlaBla) (j : Nat) :
    (stream_before is s j).flags = dec_only := by
  induction j with
  | zero => rfl
  | succ j ih =>
    show (extract_u64 (stream_before is s j) (serial_field s j)).1.flags = dec_only
    rw [extract_u64_flags, ih]

theorem takeWhile_isDigit_nil (l : List Char)
    (h : (match l.head? with
      | none => true
      | some c => !c.isDigit && !isspace c) = true) :
    l.takeWhile Char.isDigit = [] := by
  cases l with
  | nil => rfl
  | cons c tl =>
    have hc : c.isDigit = false := by
      simp only [List.head?_cons, Bool.and_eq_true, Bool.not_eq_true'] at h
      exact h.1
    exact List.takeWhile_cons_of_neg (by rw [hc]; decide)

theorem extract_u64_rejects (st : IStream) (v : Nat) (hf : st.flags.skipws = false)
    (h : field_rejected st = true) : (extract_u64 st v).1.failbit = true := by
  by_cases hg : st.good = false
  · exact (extract_u64_not_good_stays st v hg).2.1
  · have hgood : (st.eofbit || st.failbit) = false := by
      unfold IStream.good at hg
      cases he : st.eofbit <;> cases hfl : st.failbit <;> simp [he, hfl] at hg ⊢
    have hg2 : st.good = true := by simpa using hg
    unfold field_rejected at h
    rw [hg2] at h
    simp only [Bool.not_true, Bool.false_or, Bool.or_eq_true, decide_eq_true_eq] at h
    unfold extract_u64
    rw [if_neg (by rw [hgood]; decide)]
    simp only [hf, Bool.false_and, if_false, Bool.false_eq_true]
    have hs : (if (st.buf.head? == some '-' || st.buf.head? == some '+') = true
        then st.buf.tail else st.buf) = strip_sign st.buf := rfl
    rw [hs]
    rcases h with h | h
    · rw [takeWhile_isDigit_nil _ h]
      rfl
    · have h2 : digits_value (List.takeWhile Char.isDigit (strip_sign st.buf)) > W64 - 1 := h
      by_cases he : (List.takeWhile Char.isDigit (strip_sign st.buf)).isEmpty = true
      · rw [if_pos he]
      · rw [if_neg he, if_pos h2]

set_option maxRecDepth 100000 in
/-- C16 on the code: the text `1+2+3+4+5 6` is not five whitespace-separated decimal
tokens, yet `operator>>` reads it without `failbit`: it stores 1, 2, 3, 4 in the key words
and 5 in `ctr`, and leaves ` 6` unread. -/
theorem sign_separated_text_is_accepted :
    (operator_in (IStream.of_text "1+2+3+4+5 6".toList) (zero_state.seed 7 9)).1.failbit
        = false ∧
      (operator_in (IStream.of_text "1+2+3+4+5 6".toList) (zero_state.seed 7 9)).2.keysetup.data
        = [1, 2, 3, 4, 0, 0, 0, 0] ∧
      (operator_in (IStream.of_text "1+2+3+4+5 6".toList) (zero_state.seed 7 9)).2.ctr = 5 ∧
      (operator_in (IStream.of_text "1+2+3+4+5 6".toList) (zero_state.seed 7 9)).1.buf
        = " 6".toList := by
  refine ⟨?_, ?_, ?_, ?_⟩ <;> decide

/-- C16 as amended: `operator>>` ends with `failbit` set whenever one of its five
extractions meets an unreadable field: the stream is no longer `good()` or the text has
ended (fewer than five fields), or after an optional sign comes a character that is
neither a digit nor whitespace (a non-numeric token), or the digits denote a value above
`2^64 - 1`.  This holds for every stream whose exception mask does not contain `eofbit`;
with `eofbit` in the mask the read ends with `failbit` set or by an exception. -/
theorem operator_in_rejects_unreadable_field (is : IStream) (s : BlaBla) (j : Nat)
    (hj : j < 5) (h : field_rejected (stream_before is s j) = true) :
    (is.except_eofbit = false → (operator_in is s).1.failbit = true) ∧
      ((operator_in is s).1.failbit = true ∨ operator_in_throws is s = true) := by
  have hfail : (extract_u64 (stream_before is s j) (serial_field s j)).1.failbit = true :=
    extract_u64_rejects _ _ (by rw [stream_before_flags]; rfl) h
  have h5 : (stream_before is s 5).failbit = true := by
    by_cases h4 : j = 4
    · subst h4
      exact hfail
    · have hbad : (stream_before is s (j + 1)).good = false := by
        show (extract_u64 (stream_before is s j) (serial_field s j)).1.good = false
        simp [IStream.good, hfail]
      exact (extract_u64_not_good_stays _ _
        (stream_before_not_good is s (j + 1) hbad 4 (by omega))).2.1
  exact ⟨(operator_in_failbit_of_chain is s h5).2, (operator_in_failbit_of_chain is s h5).1⟩

set_option maxRecDepth 100000 in
/-- Witness for the amended C16: in `1+2+x+4+5` the third field is `+x`. -/
theorem operator_in_rejects_unreadable_field_witness :
    (2 : Nat) < 5 ∧
      field_rejected (stream_before (IStream.of_text "1+2+x+4+5".toList) (zero_state.seed 7 9) 2)
        = true ∧
      (operator_in (IStream.of_text "1+2+x+4+5".toList) (zero_state.seed 7 9)).1.failbit
        = true :=
  ⟨by decide, by decide,
    (operator_in_rejects_unreadable_field (IStream.of_text "1+2+x+4+5".toList)
      (zero_state.seed 7 9) 2 (by decide) (by decide)).1 rfl⟩

/-! ## The cache after an `operator>>` that throws -/

/-- On a stream with `exceptions(eofbit)` the one-field text `7` ends the read by an
exception at the first extraction, with `eofbit` set and `failbit` clear. -/
theorem eof_exception_leaves_failbit_clear :
    operator_in_throws { IStream.of_text "7".toList with except_eofbit := true }
        (zero_state.seed 7 9) = true ∧
      (operator_in { IStream.of_text "7".toList with except_eofbit := true }
        (zero_state.seed 7 9)).1.failbit = false ∧
      (operator_in { IStream.of_text "7".toList with except_eofbit := true }
        (zero_state.seed 7 9)).1.eofbit = true := by
  refine ⟨?_, ?_, ?_⟩ <;> decide!

end BlaBlaPRNG
